import Mathlib

/-! VocalLocal sequence resolver (`server.js`)

A shallow embedding of the resolution core of `server.js`: the grammar regex of
`parse_sequence`, the dash-key derivation of `find_dash_entry`, and the loop of
`get_final_audio_paths`, followed by the properties proved about them.

Conventions of the embedding.

* A JavaScript string is a `List Char` (`Str`).  Every pattern of the program is built
  from ASCII characters, so matching on characters and matching on UTF-16 code units
  agree.
* `preloaded_mappings` is a plain JavaScript object filled by assignments
  `preloaded_mappings[key] = record`: an association list of the pairs assigned (the
  first pair for a key is the current one).  A key that was not assigned is still looked
  up on the prototype chain.  The assignment with the key `__proto__` creates no own
  property: it installs the record as the prototype of the object, after which
  `preloaded_mappings["__proto__"]` evaluates to that record and the properties `dir`
  and `mappings` of the record are inherited; the pair with the key `__proto__` stands
  for that installed prototype.
* A call that raises (here always a `TypeError`) returns `none`.
* `path.join` belongs to the host runtime; the resolver takes it as the parameter
  `join`.  `posix_join` models it on a POSIX host and is used in the worked examples.
-/

namespace VocalLocal

/-- A JavaScript string, as the list of its characters. -/
abbrev Str := List Char

/-! ## Character classes -/

/-- The class `[A-Z]`. -/
def is_upper (c : Char) : Bool := decide (65 ≤ c.toNat ∧ c.toNat ≤ 90)

/-- The class `\d` (without the unicode flag: `[0-9]`). -/
def is_digit (c : Char) : Bool := decide (48 ≤ c.toNat ∧ c.toNat ≤ 57)

/-- The characters removed by `String.prototype.trim`: WhiteSpace and LineTerminator. -/
def is_js_space (c : Char) : Bool :=
  decide (c.toNat = 0x09 ∨ c.toNat = 0x0A ∨ c.toNat = 0x0B ∨ c.toNat = 0x0C ∨ c.toNat = 0x0D
    ∨ c.toNat = 0x20 ∨ c.toNat = 0xA0 ∨ c.toNat = 0x1680
    ∨ (0x2000 ≤ c.toNat ∧ c.toNat ≤ 0x200A)
    ∨ c.toNat = 0x2028 ∨ c.toNat = 0x2029 ∨ c.toNat = 0x202F ∨ c.toNat = 0x205F
    ∨ c.toNat = 0x3000 ∨ c.toNat = 0xFEFF)

/-! ## A backtracking matcher for the constructs of the grammar regex -/

/-- The capture array of a match: index `i` holds the text of group `i`, `none` when the
group did not take part (`undefined`). -/
abbrev Caps := List (Option Str)

/-- The regex constructs used by `parse_sequence`. -/
inductive Re where
  /-- One or more characters of a class, greedy: `[A-Z]+`, `\d+`. -/
  | plus (p : Char → Bool)
  /-- Greedy `r?`. -/
  | opt (r : Re)
  /-- Concatenation. -/
  | cat (r s : Re)
  /-- Capturing group number `i`. -/
  | group (i : Nat) (r : Re)

/-- The inputs left after `p+` has matched at the head of the input, in the order a
backtracking matcher tries them: longest match first, one character last. -/
def plus_class (p : Char → Bool) : Str → List Str
  | [] => []
  | a :: t => if p a then plus_class p t ++ [t] else []

/-- All ways `r` matches at the head of the input, in backtracking priority order.  A
state is the input still to be read together with the captures made so far. -/
def Re.successes : Re → Str × Caps → List (Str × Caps)
  | .plus p, st => (plus_class p st.1).map (fun rest => (rest, st.2))
  | .opt r, st => r.successes st ++ [st]
  | .cat r s, st => (r.successes st).flatMap s.successes
  | .group i r, st =>
      (r.successes st).map
        (fun st' => (st'.1, st'.2.set i (some (st.1.take (st.1.length - st'.1.length)))))

/-- The result of `s.match(/^r$/)`: the captures of the first way, in priority order, in
which `r` matches the whole of `s`; `none` is `null`.  Index 0 is not filled in (the
program ignores it). -/
def regex_match (r : Re) (s : Str) : Option Caps :=
  ((r.successes (s, List.replicate 9 none)).find? (fun st => st.1.isEmpty)).map (·.2)

/-- The pattern
`/^([A-Z]+)(\d+)?(?:([A-Z]+)(\d+))?(?:([A-Z]+)(\d+))?(?:([A-Z]+)(\d+))?$/`. -/
def sequence_regex : Re :=
  .cat (.group 1 (.plus is_upper))
  (.cat (.opt (.group 2 (.plus is_digit)))
  (.cat (.opt (.cat (.group 3 (.plus is_upper)) (.group 4 (.plus is_digit))))
  (.cat (.opt (.cat (.group 5 (.plus is_upper)) (.group 6 (.plus is_digit))))
        (.opt (.cat (.group 7 (.plus is_upper)) (.group 8 (.plus is_digit)))))))

/-! ## `parse_sequence` -/

/-- The record returned by `parse_sequence`. -/
structure ParsedSequence where
  primary : Str
  secondary : Str
  tertiary : Str
  quaternary : Str
  numbers : List Str
  deriving DecidableEq, Repr

/-- The text of group `i`, with `x || ""` applied: the empty string for `undefined`. -/
def group_or_empty (m : Caps) (i : Nat) : Str := ((m.get? i).join).getD []

/-- The test `Boolean(x)` on a capture: `undefined` and the empty string are falsy, so
they give `none`; any other string is kept. -/
def truthy (x : Option Str) : Option Str :=
  match x with
  | some (a :: t) => some (a :: t)
  | _ => none

/-- The call `.filter(Boolean)` on a list of captures. -/
def filter_truthy (xs : List (Option Str)) : List Str := xs.filterMap truthy

/-- The function `parse_sequence`; `none` is `null`.  Group 1 takes part in every match,
so reading it through `group_or_empty` does not change it. -/
def parse_sequence (seq : Str) : Option ParsedSequence :=
  match regex_match sequence_regex seq with
  | none => none
  | some m =>
    some { primary := group_or_empty m 1
           secondary := group_or_empty m 3
           tertiary := group_or_empty m 5
           quaternary := group_or_empty m 7
           numbers := filter_truthy [(m.get? 2).join, (m.get? 4).join, (m.get? 6).join,
             (m.get? 8).join] }

/-! ## The dash key -/

/-- The call `s.replace(/\d+/g, "-")`: every maximal run of digits becomes one hyphen.
The flag is true when the previous character was a digit, so the hyphen of the current
run is already written. -/
def replace_digit_runs_from (in_run : Bool) : Str → Str
  | [] => []
  | c :: cs =>
    if is_digit c then
      if in_run then replace_digit_runs_from true cs
      else '-' :: replace_digit_runs_from true cs
    else c :: replace_digit_runs_from false cs

/-- The call `s.replace(/\d+/g, "-")`. -/
def replace_digit_runs (s : Str) : Str := replace_digit_runs_from false s

/-- The call `s.trim()`. -/
def js_trim (s : Str) : Str :=
  ((s.dropWhile is_js_space).reverse.dropWhile is_js_space).reverse

/-- The last call of the dash-key chain, `.replace(re, "")` where `re` is a hyphen
followed by the end anchor `$`: one hyphen at the very end is removed. -/
def strip_trailing_hyphen (s : Str) : Str :=
  if s.getLast? = some '-' then s.dropLast else s

/-- The local `dash_key` of `find_dash_entry`. -/
def dash_key (sequence : Str) : Str :=
  strip_trailing_hyphen (js_trim (replace_digit_runs sequence))

/-- The value `sequence.match(/\d+/)`, when it is not `null`, at index 0: the leftmost
maximal run of digits.  `none` is `null`. -/
def first_digit_run (sequence : Str) : Option Str :=
  match sequence.dropWhile (fun c => !is_digit c) with
  | [] => none
  | c :: cs => some ((c :: cs).takeWhile is_digit)

/-! ## The mapping store -/

/-- The record stored under a composite key: `{ dir, mappings }`, a mapping being the
pair of the attributes `key` and `value`. -/
structure MappingRecord where
  dir : Str
  mappings : List (Str × Str)
  deriving DecidableEq, Repr

/-- The object `preloaded_mappings`: the pairs assigned to it, the latest first. -/
abbrev Store := List (Str × MappingRecord)

/-- What `preloaded_mappings[key]` evaluates to when it is truthy. -/
inductive Property where
  /-- A record written by the preload. -/
  | record (e : MappingRecord)
  /-- A value found on the prototype chain that is no record (a member of
  `Object.prototype`, or the `dir` or `mappings` of an installed prototype): truthy, with
  no `dir` and no `mappings` of its own. -/
  | inherited
  deriving DecidableEq, Repr

/-- The property names of `Object.prototype`. -/
def object_prototype_keys : List Str :=
  ["constructor".toList, "__defineGetter__".toList, "__defineSetter__".toList,
   "hasOwnProperty".toList, "__lookupGetter__".toList, "__lookupSetter__".toList,
   "isPrototypeOf".toList, "propertyIsEnumerable".toList, "toString".toList,
   "valueOf".toList, "__proto__".toList, "toLocaleString".toList]

/-- The expression `preloaded_mappings[key]`; `none` is a falsy value (`undefined`, or
the empty string for the `dir` of an installed prototype). -/
def store_get (preloaded_mappings : Store) (key : Str) : Option Property :=
  match preloaded_mappings.lookup key with
  | some e => some (.record e)
  | none =>
    if key ∈ object_prototype_keys then some .inherited
    else
      match preloaded_mappings.lookup "__proto__".toList with
      | some installed =>
        if key = "mappings".toList ∨ (key = "dir".toList ∧ installed.dir ≠ []) then
          some .inherited
        else none
      | none => none

/-- The function `find_dash_entry`: `entry || null`. -/
def find_dash_entry (preloaded_mappings : Store) (sequence : Str) : Option Property :=
  store_get preloaded_mappings (dash_key sequence)

/-! ## `preload_xml_files` -/

/-- The array that `Array.isArray(x) ? x : [x]` (lines 23-25 and 39-41) makes of the
`Entry` elements of a document read with `explicitArray: false`: the reader gives
`undefined` for no element, the element itself for one and an array for several, so the
result is `[undefined]`, the one-element array, or the array.  `none` is the element
`undefined`. -/
def coerce_to_array {α : Type} (elements : List α) : List (Option α) :=
  match elements with
  | [] => [none]
  | [x] => [some x]
  | xs => xs.map some

/-- The call `array.find((m) => m.$.key === num)` on an array that may hold `undefined`:
the callback reads `m.$`, so it raises on an `undefined` element it reaches.  The outer
`none` is the raise, `some none` the result `undefined`. -/
def array_find : List (Option (Str × Str)) → Str → Option (Option (Str × Str))
  | [], _ => some none
  | none :: _, _ => none
  | some m :: rest, num => if m.1 == num then some (some m) else array_find rest num

/-- One `Entry` of the configuration, with the mapping table its `mapping` attribute
refers to already read; `secondary` is `none` when the attribute is absent.  `mappings`
lists the `Entry` elements of the table.  The array the code stores is
`coerce_to_array mappings`: for a table with at least one `Entry` it is this list, which
is what the record of the model holds; for a table with no `Entry` it is `[undefined]`,
which a `MappingRecord` does not hold, and every `find` on it raises. -/
structure ConfigEntry where
  primary : Str
  secondary : Option Str
  dir : Str
  mappings : List (Str × Str)
  deriving DecidableEq, Repr

/-- The template string with `entry.$.primary`, an underscore and
`entry.$.secondary || ""`. -/
def composite_key (entry : ConfigEntry) : Str :=
  entry.primary ++ '_' :: entry.secondary.getD []

/-- The object literal with `dir: entry.$.dir` and the mapping table of the entry. -/
def entry_record (entry : ConfigEntry) : MappingRecord := ⟨entry.dir, entry.mappings⟩

/-- One turn of the second `for` loop of `preload_xml_files` (lines 34-54): the
assignment under the composite key, then, when the primary includes a hyphen, the
assignment under the primary alone. -/
def preload_entry (preloaded_mappings : Store) (entry : ConfigEntry) : Store :=
  let with_composite := (composite_key entry, entry_record entry) :: preloaded_mappings
  if '-' ∈ entry.primary then (entry.primary, entry_record entry) :: with_composite
  else with_composite

/-- The store `preload_xml_files` builds from the entries of the configuration, in
declaration order, starting from the empty object.  `entry_array` lists the `Entry`
elements of the configuration; with none, the array of lines 23-25 is `[undefined]`, the
logging loop of lines 28-32 raises and the object stays empty, as it is here. -/
def preload_xml_files (entry_array : List ConfigEntry) : Store :=
  entry_array.foldl preload_entry []

/-! ## Directory normalisation and `path.join` -/

/-- The call `s.replace(pat, "")` with a string pattern: the leftmost occurrence of
`pat` is removed. -/
def remove_first (pat : Str) : Str → Str
  | [] => []
  | c :: cs =>
    if pat.isPrefixOf (c :: cs) then (c :: cs).drop pat.length
    else c :: remove_first pat cs

/-- The string literal `"domestic\\"`. -/
def domestic_literal : Str := "domestic\\".toList

/-- The expression `entry.dir.replace("domestic\\", "")`. -/
def normalize_dir (dir : Str) : Str := remove_first domestic_literal dir

/-- The segment stack of POSIX path normalisation: empty and `.` segments are dropped,
`..` removes the segment before it, or is kept when there is none to remove and the path
is relative. -/
def normalize_segments (allow_above_root : Bool) : List Str → List Str → List Str
  | acc, [] => acc.reverse
  | acc, seg :: rest =>
    if seg = [] ∨ seg = ['.'] then normalize_segments allow_above_root acc rest
    else if seg = ['.', '.'] then
      match acc with
      | top :: acc' =>
        if top = ['.', '.'] then normalize_segments allow_above_root (seg :: acc) rest
        else normalize_segments allow_above_root acc' rest
      | [] =>
        if allow_above_root then normalize_segments allow_above_root [seg] rest
        else normalize_segments allow_above_root [] rest
    else normalize_segments allow_above_root (seg :: acc) rest

/-- The host's `path.normalize` on a POSIX platform. -/
def posix_normalize (path : Str) : Str :=
  if path = [] then ['.']
  else
    let is_absolute := path.head? = some '/'
    let trailing := path.getLast? = some '/'
    let body := ['/'].intercalate
      (normalize_segments (!decide is_absolute) [] (path.splitOn '/'))
    if body = [] then
      if is_absolute then ['/'] else if trailing then ['.', '/'] else ['.']
    else (if is_absolute then ['/'] else []) ++ body ++ (if trailing then ['/'] else [])

/-- The host's `path.join` with two arguments on a POSIX platform: the non-empty
arguments are joined with `/` and the result is normalised. -/
def posix_join (a b : Str) : Str :=
  let joined := if a = [] then b else if b = [] then a else a ++ '/' :: b
  if joined = [] then ['.'] else posix_normalize joined

/-! ## `get_final_audio_paths` -/

/-- The call `mappings.find((m) => m.$.key === num)`. -/
def find_mapping (mappings : List (Str × Str)) (num : Str) : Option (Str × Str) :=
  mappings.find? (fun m => m.1 == num)

/-- The dash stage of the loop body (lines 97-117): the flag `dash_used` and the results
after the stage.  It raises when the dash entry is found and the sequence has no digit
(`sequence.match(/\d+/)` is `null`), or when the entry found is not a record. -/
def dash_stage (join : Str → Str → Str) (preloaded_mappings : Store) (results : List Str)
    (sequence : Str) : Option (Bool × List Str) :=
  match find_dash_entry preloaded_mappings sequence with
  | none => some (false, results)
  | some dash_entry =>
    match first_digit_run sequence with
    | none => none
    | some primary_num =>
      match dash_entry with
      | .inherited => none
      | .record e =>
        match find_mapping e.mappings primary_num with
        | some map_entry => some (true, results ++ [join e.dir map_entry.2])
        | none => some (true, results)

/-- The lookup of `num` in the table of `target` followed by the push of
`path.join(target.dir.replace("domestic\\", ""), value)`; the three branches of the
`forEach` callback share it.  It raises when `target` is not a record. -/
def push_resolved (join : Str → Str → Str) (target : Property) (results : List Str)
    (num : Str) : Option (List Str) :=
  match target with
  | .inherited => none
  | .record e =>
    match find_mapping e.mappings num with
    | some map_entry => some (results ++ [join (normalize_dir e.dir) map_entry.2])
    | none => some results

/-- One call of the `forEach` callback (lines 136-176). -/
def resolve_number (join : Str → Str → Str) (preloaded_mappings : Store)
    (parsed : ParsedSequence) (entry : Property) (dash_used : Bool) (results : List Str)
    (index : Nat) (num : Str) : Option (List Str) :=
  if index = 1 ∧ dash_used = true then
    match store_get preloaded_mappings (parsed.primary ++ '_' :: parsed.tertiary) with
    | none => some results
    | some entry_tri => push_resolved join entry_tri results num
  else if index = 2 ∧ dash_used = true then
    match store_get preloaded_mappings (parsed.primary ++ '_' :: parsed.quaternary) with
    | none => some results
    | some entry_qua => push_resolved join entry_qua results num
  else push_resolved join entry results num

/-- The body of the `for` loop of `get_final_audio_paths` (lines 95-176): the results
after one sequence. -/
def process_sequence (join : Str → Str → Str) (preloaded_mappings : Store)
    (results : List Str) (sequence : Str) : Option (List Str) :=
  match dash_stage join preloaded_mappings results sequence with
  | none => none
  | some (dash_used, results) =>
    match parse_sequence sequence with
    | none => some results
    | some parsed =>
      match store_get preloaded_mappings (parsed.primary ++ '_' :: parsed.secondary) with
      | none => some results
      | some entry =>
        let numbers := if dash_used then parsed.numbers.tail else parsed.numbers
        numbers.enum.foldlM
          (fun acc x => resolve_number join preloaded_mappings parsed entry dash_used acc x.1 x.2)
          results

/-- The function `get_final_audio_paths`; `none` when the call raises. -/
def get_final_audio_paths (join : Str → Str → Str) (preloaded_mappings : Store)
    (sequences : List Str) : Option (List Str) :=
  sequences.foldlM (process_sequence join preloaded_mappings) []


/-! ## Specification-side vocabulary -/

/-- A non-empty run of characters of the class `p`. -/
def IsRun (p : Char → Bool) (w : Str) : Prop := w ≠ [] ∧ ∀ c ∈ w, p c = true

instance (p : Char → Bool) (w : Str) : Decidable (IsRun p w) :=
  inferInstanceAs (Decidable (w ≠ [] ∧ ∀ c ∈ w, p c = true))

/-- The first match, in priority order, accepted by the continuation `k`. -/
def Re.run {α : Type} (r : Re) (st : Str × Caps) (k : Str × Caps → Option α) : Option α :=
  (r.successes st).findSome? k

/-- The continuation that ends a whole-string match: the input must be used up. -/
def accept_all (st : Str × Caps) : Option Caps := if st.1.isEmpty then some st.2 else none

/-- The words a regex matches, by recursion on the regex. -/
def Re.Lang : Re → Str → Prop
  | .plus p, w => IsRun p w
  | .opt r, w => w = [] ∨ r.Lang w
  | .cat r s, w => ∃ u v, w = u ++ v ∧ r.Lang u ∧ s.Lang v
  | .group _ r, w => r.Lang w

/-- The sequence grammar `LETTERS[DIGITS](LETTERS DIGITS){0,3}`: one letter run, an
optional digit run, then zero to three (letter run, digit run) pairs, and nothing else. -/
def Grammar (s : Str) : Prop :=
  ∃ (L1 D1 : Str) (pairs : List (Str × Str)),
    IsRun is_upper L1 ∧ (D1 = [] ∨ IsRun is_digit D1) ∧ pairs.length ≤ 3 ∧
    (∀ pr ∈ pairs, IsRun is_upper pr.1 ∧ IsRun is_digit pr.2) ∧
    s = L1 ++ D1 ++ pairs.flatMap (fun pr => pr.1 ++ pr.2)

/-- The record `parse_sequence` is expected to return on the segments
`L1 D1 L2 D2 ...`, the segments after the first given as a list. -/
def segments_record (L1 D1 : Str) (more : List (Str × Str)) : ParsedSequence :=
  { primary := L1
    secondary := (more.map Prod.fst).getD 0 []
    tertiary := (more.map Prod.fst).getD 1 []
    quaternary := (more.map Prod.fst).getD 2 []
    numbers := D1 :: more.map Prod.snd }


/-- The paths a mapping table gives for a list of numbers, in the order of the numbers:
for each number that is the key of some pair, `join dir v` with `v` the value of the first
such pair; nothing for a number that is no key. -/
def resolved_paths (join : Str → Str → Str) (dir : Str) (mappings : List (Str × Str))
    (numbers : List Str) : List Str :=
  numbers.filterMap (fun num =>
    (mappings.find? (fun m => decide (m.1 = num))).map (fun m => join dir m.2))

/-- The output of the dash stage as the specification words it: when the dash key is a
key of the store, the path for the first digit run in the table of the dash entry, its
directory joined as it is; nothing in every other case. -/
def dash_output (join : Str → Str → Str) (store : Store) (sequence : Str) : List Str :=
  match store.lookup (dash_key sequence), first_digit_run sequence with
  | some e, some num => resolved_paths join e.dir e.mappings [num]
  | _, _ => []

/-- The store of the worked example: the base entry `WA_`. -/
def example_base_store : Store :=
  [("WA_".toList, ⟨"sounds/wa".toList, [("1".toList, "one.mp3".toList)]⟩)]

/-- The store of the worked example with the bare key `WA` added. -/
def example_dash_store : Store :=
  ("WA".toList, ⟨"sounds/dash".toList, [("1".toList, "dashone.mp3".toList)]⟩) ::
    example_base_store

/-- The store the preload builds from one entry with primary `WA-BC`, no secondary: the
keys `WA-BC_` and `WA-BC` hold the same record. -/
def example_hyphen_store : Store :=
  [("WA-BC".toList, ⟨"sounds/dash".toList, [("1".toList, "dashone.mp3".toList)]⟩),
   ("WA-BC_".toList, ⟨"sounds/dash".toList, [("1".toList, "dashone.mp3".toList)]⟩)]

/-- The entry produces the key: as its composite key, or as its primary alone when the
primary contains a hyphen. -/
def produces_key (entry : ConfigEntry) (key : Str) : Prop :=
  key = composite_key entry ∨ ('-' ∈ entry.primary ∧ key = entry.primary)

instance (entry : ConfigEntry) (key : Str) : Decidable (produces_key entry key) :=
  inferInstanceAs (Decidable (key = composite_key entry ∨ ('-' ∈ entry.primary ∧ key = entry.primary)))

/-- The configuration of the worked examples: the primaries `WA` and `WA-BC`, then a
second entry for `WA` that replaces the first. -/
def example_config : List ConfigEntry :=
  [⟨"WA".toList, none, "sounds/old".toList, [("1".toList, "old.mp3".toList)]⟩,
   ⟨"WA-BC".toList, none, "sounds/dash".toList, [("1".toList, "dashone.mp3".toList)]⟩,
   ⟨"WA".toList, none, "sounds/wa".toList, [("1".toList, "one.mp3".toList)]⟩]

/-- The letter runs of a parsed sequence, in order of appearance: the non-empty ones among
primary, secondary, tertiary and quaternary. -/
def letter_runs (parsed : ParsedSequence) : List Str :=
  [parsed.primary, parsed.secondary, parsed.tertiary, parsed.quaternary].filter
    (fun r => !r.isEmpty)

/-- The number of maximal runs of digits of a string; the flag is true when the previous
character was a digit. -/
def count_digit_runs_from (in_run : Bool) : Str → Nat
  | [] => 0
  | c :: cs =>
    if is_digit c then
      if in_run then count_digit_runs_from true cs
      else 1 + count_digit_runs_from true cs
    else count_digit_runs_from false cs

/-- The number of maximal runs of digits of a string. -/
def count_digit_runs (s : Str) : Nat := count_digit_runs_from false s

/-- The paths the entry under `key` gives for a list of numbers, its directory normalised;
nothing when the store has no such key. -/
def entry_paths (join : Str → Str → Str) (store : Store) (key : Str) (numbers : List Str) :
    List Str :=
  match store.lookup key with
  | some e => resolved_paths join (normalize_dir e.dir) e.mappings numbers
  | none => []

/-- A store with the dash entry `WA-BC` and the base entry `WA_BC`, both under the
directory `domestic\sounds`. -/
def example_domestic_store : Store :=
  [("WA-BC".toList, ⟨"domestic\\sounds".toList, [("1".toList, "dashone.mp3".toList)]⟩),
   ("WA_BC".toList, ⟨"domestic\\sounds".toList, [("2".toList, "two.mp3".toList)]⟩)]

/-- A store for the positional overrides: the dash entry `WA-BC-DE-FG`, the base entry
`WA_BC`, which also has the keys `3` and `4`, and the entries `WA_DE` and `WA_FG`. -/
def example_override_store : Store :=
  [("WA-BC-DE-FG".toList, ⟨"sounds/dash".toList, [("1".toList, "dashone.mp3".toList)]⟩),
   ("WA_BC".toList, ⟨"domestic\\bc".toList,
      [("2".toList, "two.mp3".toList), ("3".toList, "base3.mp3".toList),
       ("4".toList, "base4.mp3".toList)]⟩),
   ("WA_DE".toList, ⟨"domestic\\de".toList, [("3".toList, "three.mp3".toList)]⟩),
   ("WA_FG".toList, ⟨"domestic\\fg".toList, [("4".toList, "four.mp3".toList)]⟩)]

/-! ## Character classes are disjoint -/

theorem is_upper_not_digit {c : Char} (h : is_upper c = true) : is_digit c = false := by
  simp only [is_upper, is_digit, decide_eq_true_eq, decide_eq_false_iff_not] at *
  omega

theorem is_digit_not_upper {c : Char} (h : is_digit c = true) : is_upper c = false := by
  simp only [is_upper, is_digit, decide_eq_true_eq, decide_eq_false_iff_not] at *
  omega

/-! ## The matcher in continuation form -/

theorem findSome_flatMap {α β γ : Type} (f : α → List β) (k : β → Option γ) (l : List α) :
    (l.flatMap f).findSome? k = l.findSome? (fun a => (f a).findSome? k) := by
  induction l with
  | nil => rfl
  | cons a l ih =>
    simp only [List.flatMap_cons, List.findSome?_append, List.findSome?_cons, ih]
    cases (f a).findSome? k <;> rfl

theorem run_cat {α : Type} (r s : Re) (st : Str × Caps) (k : Str × Caps → Option α) :
    (Re.cat r s).run st k = r.run st (fun st' => s.run st' k) := by
  simp only [Re.run, Re.successes, findSome_flatMap]

theorem run_opt {α : Type} (r : Re) (st : Str × Caps) (k : Str × Caps → Option α) :
    (Re.opt r).run st k = (r.run st k).or (k st) := by
  simp only [Re.run, Re.successes, List.findSome?_append, List.findSome?_cons,
    List.findSome?_nil]
  cases k st <;> rfl

theorem run_group {α : Type} (i : Nat) (r : Re) (st : Str × Caps)
    (k : Str × Caps → Option α) :
    (Re.group i r).run st k =
      r.run st (fun st' =>
        k (st'.1, st'.2.set i (some (st.1.take (st.1.length - st'.1.length))))) := by
  simp only [Re.run, Re.successes, List.findSome?_map]
  rfl

theorem plus_class_of_not {p : Char → Bool} {t : Str} (h : ∀ a ∈ t.head?, p a = false) :
    plus_class p t = [] := by
  cases t with
  | nil => rfl
  | cons a t => simp [plus_class, h a (by simp)]

theorem plus_class_greedy {p : Char → Bool} (L t : Str) (hL : IsRun p L)
    (ht : ∀ a ∈ t.head?, p a = false) : ∃ rest, plus_class p (L ++ t) = t :: rest := by
  obtain ⟨hne, hall⟩ := hL
  induction L with
  | nil => exact absurd rfl hne
  | cons a L ih =>
    have ha : p a = true := hall a (by simp)
    cases L with
    | nil =>
      refine ⟨[], ?_⟩
      simp [plus_class, ha, plus_class_of_not ht]
    | cons b L =>
      obtain ⟨rest, hrest⟩ := ih (by simp) (fun c hc => hall c (by simp [List.mem_cons] at hc ⊢; tauto))
      refine ⟨rest ++ [b :: L ++ t], ?_⟩
      have : plus_class p (a :: (b :: L) ++ t) = plus_class p ((b :: L) ++ t) ++ [(b :: L) ++ t] := by
        simp [plus_class, ha]
      rw [this, hrest]
      simp

theorem run_plus_greedy {α : Type} {p : Char → Bool} (L t : Str) (c : Caps)
    (k : Str × Caps → Option α) (x : α) (hL : IsRun p L)
    (ht : ∀ a ∈ t.head?, p a = false) (hk : k (t, c) = some x) :
    (Re.plus p).run (L ++ t, c) k = some x := by
  obtain ⟨rest, hrest⟩ := plus_class_greedy L t hL ht
  simp [Re.run, Re.successes, hrest, hk]

theorem run_plus_none {α : Type} {p : Char → Bool} (t : Str) (c : Caps)
    (k : Str × Caps → Option α) (ht : ∀ a ∈ t.head?, p a = false) :
    (Re.plus p).run (t, c) k = none := by
  simp [Re.run, Re.successes, plus_class_of_not ht]

theorem run_group_plus {α : Type} {p : Char → Bool} (i : Nat) (L t : Str) {s : Str}
    (c : Caps) (k : Str × Caps → Option α) (x : α) (hs : s = L ++ t) (hL : IsRun p L)
    (ht : ∀ a ∈ t.head?, p a = false) (hk : k (t, c.set i (some L)) = some x) :
    (Re.group i (Re.plus p)).run (s, c) k = some x := by
  subst hs
  rw [run_group]
  apply run_plus_greedy L t c _ x hL ht
  simpa using hk


theorem find_map_eq_findSome {α β : Type} (p : α → Bool) (f : α → β) (l : List α) :
    (l.find? p).map f = l.findSome? (fun a => if p a then some (f a) else none) := by
  induction l with
  | nil => rfl
  | cons a l ih =>
    simp only [List.find?_cons, List.findSome?_cons]
    cases h : p a <;> simp [ih]

theorem regex_match_eq_run (r : Re) (s : Str) :
    regex_match r s = r.run (s, List.replicate 9 none) accept_all := by
  simp only [regex_match, Re.run, find_map_eq_findSome]
  rfl

theorem head_of_run_append {p : Char → Bool} {D t : Str} (hD : IsRun p D) :
    ∀ a ∈ (D ++ t).head?, p a = true := by
  obtain ⟨hne, hall⟩ := hD
  cases D with
  | nil => exact absurd rfl hne
  | cons d D => intro a ha; simp at ha; subst ha; exact hall _ (by simp)

theorem head_digit_not_upper {D t : Str} (hD : IsRun is_digit D) :
    ∀ a ∈ (D ++ t).head?, is_upper a = false :=
  fun a ha => is_digit_not_upper (head_of_run_append hD a ha)

theorem head_upper_not_digit {L t : Str} (hL : IsRun is_upper L) :
    ∀ a ∈ (L ++ t).head?, is_digit a = false :=
  fun a ha => is_upper_not_digit (head_of_run_append hL a ha)

theorem run_opt_pair_some {α : Type} (i j : Nat) (L D t : Str) {s : Str} (c : Caps)
    (k : Str × Caps → Option α) (x : α) (hs : s = L ++ (D ++ t)) (hL : IsRun is_upper L)
    (hD : IsRun is_digit D) (ht : ∀ a ∈ t.head?, is_digit a = false)
    (hk : k (t, (c.set i (some L)).set j (some D)) = some x) :
    (Re.opt (Re.cat (Re.group i (Re.plus is_upper)) (Re.group j (Re.plus is_digit)))).run
      (s, c) k = some x := by
  rw [run_opt, run_cat,
    run_group_plus i L (D ++ t) c _ x hs hL (head_digit_not_upper hD)
      (run_group_plus j D t _ k x rfl hD ht hk)]
  rfl

theorem run_opt_pair_nil {α : Type} (i : Nat) (p : Char → Bool) (r : Re) (c : Caps)
    (k : Str × Caps → Option α) :
    (Re.opt (Re.cat (Re.group i (Re.plus p)) r)).run ([], c) k = k ([], c) := by
  rw [run_opt, run_cat, run_group, run_plus_none [] c _ (by simp)]
  rfl

theorem run_opt_digits_some {α : Type} (j : Nat) (D t : Str) {s : Str} (c : Caps)
    (k : Str × Caps → Option α) (x : α) (hs : s = D ++ t) (hD : IsRun is_digit D)
    (ht : ∀ a ∈ t.head?, is_digit a = false) (hk : k (t, c.set j (some D)) = some x) :
    (Re.opt (Re.group j (Re.plus is_digit))).run (s, c) k = some x := by
  rw [run_opt, run_group_plus j D t c k x hs hD ht hk]
  rfl

theorem run_opt_digits_nil {α : Type} (j : Nat) (c : Caps) (k : Str × Caps → Option α) :
    (Re.opt (Re.group j (Re.plus is_digit))).run ([], c) k = k ([], c) := by
  rw [run_opt, run_group, run_plus_none [] c _ (by simp)]
  rfl

/-- The four optional parts of the grammar regex find nothing on the empty input. -/
theorem run_tail_nil (c : Caps) :
    (Re.cat (Re.opt (Re.cat (Re.group 5 (Re.plus is_upper)) (Re.group 6 (Re.plus is_digit))))
      (Re.opt (Re.cat (Re.group 7 (Re.plus is_upper)) (Re.group 8 (Re.plus is_digit))))).run
      ([], c) accept_all = some c := by
  rw [run_cat, run_opt_pair_nil, run_opt_pair_nil]
  rfl

theorem truthy_run {p : Char → Bool} {D : Str} (hD : IsRun p D) : truthy (some D) = some D := by
  obtain ⟨hne, -⟩ := hD
  cases D with
  | nil => exact absurd rfl hne
  | cons d D => rfl

/-- The captures of the grammar regex on one to four (letters, digits) segments, given
as the first segment and the list of the following ones. -/
theorem regex_match_segments (L1 D1 : Str) (more : List (Str × Str)) (s : Str)
    (h1 : IsRun is_upper L1) (hd1 : IsRun is_digit D1) (hlen : more.length ≤ 3)
    (hmore : ∀ sg ∈ more, IsRun is_upper sg.1 ∧ IsRun is_digit sg.2)
    (hs : s = L1 ++ (D1 ++ more.flatMap (fun sg => sg.1 ++ sg.2))) :
    regex_match sequence_regex s =
      some ([none, some L1, some D1] ++
        (more.flatMap (fun sg => [some sg.1, some sg.2]) ++
          List.replicate (6 - 2 * more.length) none)) := by
  rw [regex_match_eq_run, sequence_regex, run_cat]
  match more, hlen, hmore with
  | [], _, _ =>
    refine run_group_plus 1 L1 _ _ _ _ hs h1 (head_digit_not_upper hd1) ?_
    rw [run_cat]
    refine run_opt_digits_some 2 D1 [] _ _ _ (by simp) hd1 (by simp) ?_
    rw [run_cat, run_opt_pair_nil, run_tail_nil]
    rfl
  | [(L2, D2)], _, hm =>
    have h2 := hm (L2, D2) (by simp)
    have hs2 : s = L1 ++ (D1 ++ (L2 ++ (D2 ++ []))) := by simpa using hs
    refine run_group_plus 1 L1 _ _ _ _ hs2 h1 (head_digit_not_upper hd1) ?_
    rw [run_cat]
    refine run_opt_digits_some 2 D1 _ _ _ _ rfl hd1 (head_upper_not_digit h2.1) ?_
    rw [run_cat]
    refine run_opt_pair_some 3 4 L2 D2 [] _ _ _ rfl h2.1 h2.2 (by simp) ?_
    rw [run_tail_nil]
    rfl
  | [(L2, D2), (L3, D3)], _, hm =>
    have h2 := hm (L2, D2) (by simp)
    have h3 := hm (L3, D3) (by simp)
    have hs3 : s = L1 ++ (D1 ++ (L2 ++ (D2 ++ (L3 ++ (D3 ++ []))))) := by simpa using hs
    refine run_group_plus 1 L1 _ _ _ _ hs3 h1 (head_digit_not_upper hd1) ?_
    rw [run_cat]
    refine run_opt_digits_some 2 D1 _ _ _ _ rfl hd1 (head_upper_not_digit h2.1) ?_
    rw [run_cat]
    refine run_opt_pair_some 3 4 L2 D2 _ _ _ _ rfl h2.1 h2.2 (head_upper_not_digit h3.1) ?_
    rw [run_cat]
    refine run_opt_pair_some 5 6 L3 D3 [] _ _ _ rfl h3.1 h3.2 (by simp) ?_
    rw [run_opt_pair_nil]
    rfl
  | [(L2, D2), (L3, D3), (L4, D4)], _, hm =>
    have h2 := hm (L2, D2) (by simp)
    have h3 := hm (L3, D3) (by simp)
    have h4 := hm (L4, D4) (by simp)
    have hs4 : s = L1 ++ (D1 ++ (L2 ++ (D2 ++ (L3 ++ (D3 ++ (L4 ++ (D4 ++ []))))))) := by
      simpa using hs
    refine run_group_plus 1 L1 _ _ _ _ hs4 h1 (head_digit_not_upper hd1) ?_
    rw [run_cat]
    refine run_opt_digits_some 2 D1 _ _ _ _ rfl hd1 (head_upper_not_digit h2.1) ?_
    rw [run_cat]
    refine run_opt_pair_some 3 4 L2 D2 _ _ _ _ rfl h2.1 h2.2 (head_upper_not_digit h3.1) ?_
    rw [run_cat]
    refine run_opt_pair_some 5 6 L3 D3 _ _ _ _ rfl h3.1 h3.2 (head_upper_not_digit h4.1) ?_
    refine run_opt_pair_some 7 8 L4 D4 [] _ _ _ rfl h4.1 h4.2 (by simp) ?_
    rfl
  | _ :: _ :: _ :: _ :: _, hl, _ => simp at hl

/-- The captures of the grammar regex on a lone letter run. -/
theorem regex_match_letters (L1 : Str) (h1 : IsRun is_upper L1) :
    regex_match sequence_regex L1 =
      some [none, some L1, none, none, none, none, none, none, none] := by
  rw [regex_match_eq_run, sequence_regex, run_cat]
  refine run_group_plus 1 L1 [] _ _ _ (by simp) h1 (by simp) ?_
  rw [run_cat, run_opt_digits_nil, run_cat, run_opt_pair_nil, run_tail_nil]
  rfl



/-! ## The language of the matcher -/

theorem mem_plus_class (p : Char → Bool) (s s' : Str) :
    s' ∈ plus_class p s ↔ ∃ w, IsRun p w ∧ s = w ++ s' := by
  induction s with
  | nil =>
    simp only [plus_class, List.not_mem_nil, false_iff]
    rintro ⟨w, ⟨hne, -⟩, hw⟩
    cases w with
    | nil => exact hne rfl
    | cons a w => simp at hw
  | cons a t ih =>
    by_cases ha : p a = true
    · simp only [plus_class, ha, if_true, List.mem_append, List.mem_singleton, ih]
      constructor
      · rintro (⟨w, ⟨hne, hall⟩, hw⟩ | rfl)
        · refine ⟨a :: w, ⟨by simp, ?_⟩, by simp [hw]⟩
          intro c hc
          rcases List.mem_cons.1 hc with rfl | hc
          · exact ha
          · exact hall c hc
        · exact ⟨[a], ⟨by simp, by simpa using ha⟩, by simp⟩
      · rintro ⟨w, ⟨hne, hall⟩, hw⟩
        cases w with
        | nil => exact absurd rfl hne
        | cons b w =>
          simp only [List.cons_append, List.cons.injEq] at hw
          obtain ⟨rfl, rfl⟩ := hw
          cases w with
          | nil => right; simp
          | cons d w =>
            left
            exact ⟨d :: w, ⟨by simp, fun c hc => hall c (List.mem_cons_of_mem _ hc)⟩, rfl⟩
    · simp only [plus_class, ha, if_false, Bool.false_eq_true, List.not_mem_nil, false_iff]
      rintro ⟨w, ⟨hne, hall⟩, hw⟩
      cases w with
      | nil => exact hne rfl
      | cons b w =>
        simp only [List.cons_append, List.cons.injEq] at hw
        obtain ⟨rfl, -⟩ := hw
        exact ha (hall _ (by simp))

theorem mem_successes (r : Re) : ∀ (s : Str) (c : Caps) (s' : Str),
    (∃ c', (s', c') ∈ r.successes (s, c)) ↔ ∃ w, r.Lang w ∧ s = w ++ s' := by
  induction r with
  | plus p =>
    intro s c s'
    simp only [Re.successes, List.mem_map, Prod.mk.injEq, Re.Lang]
    rw [← mem_plus_class]
    constructor
    · rintro ⟨c', a, ha, rfl, -⟩; exact ha
    · intro h; exact ⟨c, s', h, rfl, rfl⟩
  | opt r ih =>
    intro s c s'
    simp only [Re.successes, List.mem_append, List.mem_singleton, Prod.mk.injEq, Re.Lang]
    constructor
    · rintro ⟨c', h | ⟨rfl, rfl⟩⟩
      · obtain ⟨w, hw, hs⟩ := (ih s c s').1 ⟨c', h⟩
        exact ⟨w, Or.inr hw, hs⟩
      · exact ⟨[], Or.inl rfl, rfl⟩
    · rintro ⟨w, rfl | hw, hs⟩
      · exact ⟨c, Or.inr ⟨by simpa using hs.symm, rfl⟩⟩
      · obtain ⟨c', h⟩ := (ih s c s').2 ⟨w, hw, hs⟩
        exact ⟨c', Or.inl h⟩
  | cat r t ihr iht =>
    intro s c s'
    simp only [Re.successes, List.mem_flatMap, Re.Lang]
    constructor
    · rintro ⟨c', ⟨s1, c1⟩, h1, h2⟩
      obtain ⟨u, hu, hs⟩ := (ihr s c s1).1 ⟨c1, h1⟩
      obtain ⟨v, hv, hs1⟩ := (iht s1 c1 s').1 ⟨c', h2⟩
      exact ⟨u ++ v, ⟨u, v, rfl, hu, hv⟩, by rw [hs, hs1, List.append_assoc]⟩
    · rintro ⟨w, ⟨u, v, rfl, hu, hv⟩, hs⟩
      obtain ⟨c1, h1⟩ := (ihr s c (v ++ s')).2 ⟨u, hu, by rw [hs, List.append_assoc]⟩
      obtain ⟨c', h2⟩ := (iht (v ++ s') c1 s').2 ⟨v, hv, rfl⟩
      exact ⟨c', (v ++ s', c1), h1, h2⟩
  | group i r ih =>
    intro s c s'
    simp only [Re.successes, List.mem_map, Prod.mk.injEq, Re.Lang]
    rw [← ih s c s']
    constructor
    · rintro ⟨c', ⟨s1, c1⟩, h, rfl, -⟩; exact ⟨c1, h⟩
    · rintro ⟨c1, h⟩; exact ⟨_, (s', c1), h, rfl, rfl⟩

/-- The matcher finds a match of the whole input exactly on the words of the language. -/
theorem regex_match_isSome (r : Re) (s : Str) : (regex_match r s).isSome = true ↔ r.Lang s := by
  simp only [regex_match, Option.isSome_map', List.find?_isSome, List.isEmpty_iff]
  constructor
  · rintro ⟨⟨s', c'⟩, h, hs'⟩
    simp only at hs'
    subst hs'
    obtain ⟨w, hw, hs⟩ := (mem_successes r s _ []).1 ⟨c', h⟩
    simpa [hs] using hw
  · intro h
    obtain ⟨c', hc'⟩ := (mem_successes r s (List.replicate 9 none) []).2 ⟨s, h, by simp⟩
    exact ⟨([], c'), hc', rfl⟩



/-! ## The grammar in the words of the specification -/

theorem opt_pair_cons (n : Nat) (w rest : Str)
    (hw : w = [] ∨ ∃ u v, w = u ++ v ∧ IsRun is_upper u ∧ IsRun is_digit v)
    (hrest : ∃ pairs : List (Str × Str), pairs.length ≤ n ∧
      (∀ pr ∈ pairs, IsRun is_upper pr.1 ∧ IsRun is_digit pr.2) ∧
      rest = pairs.flatMap (fun pr => pr.1 ++ pr.2)) :
    ∃ pairs : List (Str × Str), pairs.length ≤ n + 1 ∧
      (∀ pr ∈ pairs, IsRun is_upper pr.1 ∧ IsRun is_digit pr.2) ∧
      w ++ rest = pairs.flatMap (fun pr => pr.1 ++ pr.2) := by
  obtain ⟨pairs, hlen, hgood, rfl⟩ := hrest
  rcases hw with rfl | ⟨u, v, rfl, hu, hv⟩
  · exact ⟨pairs, by omega, hgood, by simp⟩
  · refine ⟨(u, v) :: pairs, by simpa using hlen, ?_, by simp⟩
    intro pr hpr
    rcases List.mem_cons.1 hpr with rfl | hpr
    · exact ⟨hu, hv⟩
    · exact hgood pr hpr

theorem lang_sequence_regex_iff (s : Str) : sequence_regex.Lang s ↔ Grammar s := by
  simp only [sequence_regex, Re.Lang, Grammar]
  constructor
  · rintro ⟨L1, v1, rfl, hL1, D1, v2, rfl, hD1, w3, v3, rfl, h3, w4, w5, rfl, h4, h5⟩
    obtain ⟨p5, hl5, hg5, e5⟩ := opt_pair_cons 0 w5 [] h5 ⟨[], by simp, by simp, by simp⟩
    obtain ⟨p4, hl4, hg4, e4⟩ := opt_pair_cons 1 w4 (w5 ++ []) h4 ⟨p5, hl5, hg5, e5⟩
    obtain ⟨p3, hl3, hg3, e3⟩ := opt_pair_cons 2 w3 (w4 ++ (w5 ++ [])) h3 ⟨p4, hl4, hg4, e4⟩
    refine ⟨L1, D1, p3, hL1, hD1, hl3, hg3, ?_⟩
    rw [← e3]
    simp
  · rintro ⟨L1, D1, pairs, hL1, hD1, hlen, hgood, rfl⟩
    refine ⟨L1, D1 ++ pairs.flatMap (fun pr => pr.1 ++ pr.2), by simp, hL1, D1, _, rfl, hD1, ?_⟩
    match pairs, hlen, hgood with
    | [], _, _ => exact ⟨[], [], by simp, Or.inl rfl, [], [], by simp, Or.inl rfl, Or.inl rfl⟩
    | [a], _, hg =>
      exact ⟨a.1 ++ a.2, [], by simp, Or.inr ⟨a.1, a.2, rfl, hg a (by simp)⟩,
        [], [], by simp, Or.inl rfl, Or.inl rfl⟩
    | [a, b], _, hg =>
      exact ⟨a.1 ++ a.2, b.1 ++ b.2, by simp, Or.inr ⟨a.1, a.2, rfl, hg a (by simp)⟩,
        b.1 ++ b.2, [], by simp, Or.inr ⟨b.1, b.2, rfl, hg b (by simp)⟩, Or.inl rfl⟩
    | [a, b, c], _, hg =>
      exact ⟨a.1 ++ a.2, b.1 ++ b.2 ++ (c.1 ++ c.2), by simp,
        Or.inr ⟨a.1, a.2, rfl, hg a (by simp)⟩,
        b.1 ++ b.2, c.1 ++ c.2, by simp, Or.inr ⟨b.1, b.2, rfl, hg b (by simp)⟩,
        Or.inr ⟨c.1, c.2, rfl, hg c (by simp)⟩⟩
    | _ :: _ :: _ :: _ :: _, hl, _ => simp at hl

theorem isRun_append {p : Char → Bool} {u v : Str} (hu : IsRun p u) (hv : IsRun p v) :
    IsRun p (u ++ v) :=
  ⟨by simp [hu.1], fun c hc => (List.mem_append.1 hc).elim (hu.2 c) (hv.2 c)⟩

/-- A word of the grammar is a lone letter run, or one to four full segments. -/
theorem grammar_cases {s : Str} (h : Grammar s) :
    IsRun is_upper s ∨
    ∃ (L1 D1 : Str) (more : List (Str × Str)),
      IsRun is_upper L1 ∧ IsRun is_digit D1 ∧ more.length ≤ 3 ∧
      (∀ sg ∈ more, IsRun is_upper sg.1 ∧ IsRun is_digit sg.2) ∧
      s = L1 ++ (D1 ++ more.flatMap (fun sg => sg.1 ++ sg.2)) := by
  obtain ⟨L1, D1, pairs, hL1, hD1, hlen, hgood, rfl⟩ := h
  rcases hD1 with rfl | hD1
  · cases pairs with
    | nil => left; simpa using hL1
    | cons a rest =>
      right
      refine ⟨L1 ++ a.1, a.2, rest, isRun_append hL1 (hgood a (by simp)).1,
        (hgood a (by simp)).2, ?_, fun sg hsg => hgood sg (List.mem_cons_of_mem _ hsg), by simp⟩
      simp at hlen
      omega
  · right
    exact ⟨L1, D1, pairs, hL1, hD1, hlen, hgood, by simp⟩

theorem parse_segments (L1 D1 : Str) (more : List (Str × Str)) (s : Str)
    (h1 : IsRun is_upper L1) (hd1 : IsRun is_digit D1) (hlen : more.length ≤ 3)
    (hmore : ∀ sg ∈ more, IsRun is_upper sg.1 ∧ IsRun is_digit sg.2)
    (hs : s = L1 ++ (D1 ++ more.flatMap (fun sg => sg.1 ++ sg.2))) :
    parse_sequence s = some (segments_record L1 D1 more) := by
  have h := regex_match_segments L1 D1 more s h1 hd1 hlen hmore hs
  have t1 := truthy_run hd1
  have tn : truthy none = none := rfl
  match more, hlen, hmore with
  | [], _, _ =>
    simp [parse_sequence, h, group_or_empty, filter_truthy, t1, tn, List.filterMap_cons, segments_record]
  | [a], _, hm =>
    have t2 := truthy_run (hm a (by simp)).2
    simp [parse_sequence, h, group_or_empty, filter_truthy, t1, t2, tn, List.filterMap_cons, segments_record]
  | [a, b], _, hm =>
    have t2 := truthy_run (hm a (by simp)).2
    have t3 := truthy_run (hm b (by simp)).2
    simp [parse_sequence, h, group_or_empty, filter_truthy, t1, t2, t3, tn, List.filterMap_cons, segments_record]
  | [a, b, c], _, hm =>
    have t2 := truthy_run (hm a (by simp)).2
    have t3 := truthy_run (hm b (by simp)).2
    have t4 := truthy_run (hm c (by simp)).2
    simp [parse_sequence, h, group_or_empty, filter_truthy, t1, t2, t3, t4, tn,
      List.filterMap_cons, segments_record]
  | _ :: _ :: _ :: _ :: _, hl, _ => simp at hl

theorem parse_letters (L1 : Str) (h1 : IsRun is_upper L1) :
    parse_sequence L1 = some ⟨L1, [], [], [], []⟩ := by
  simp [parse_sequence, regex_match_letters L1 h1, group_or_empty, filter_truthy, truthy]

theorem parse_isSome_iff (s : Str) : (parse_sequence s).isSome = true ↔ Grammar s := by
  rw [← lang_sequence_regex_iff, ← regex_match_isSome]
  unfold parse_sequence
  cases regex_match sequence_regex s <;> simp

/-- Every accepted string is a lone letter run or one to four full segments, and the
record returned is the one read off those runs. -/
theorem parse_cases {s : Str} {parsed : ParsedSequence} (h : parse_sequence s = some parsed) :
    (IsRun is_upper s ∧ parsed = ⟨s, [], [], [], []⟩) ∨
    ∃ (L1 D1 : Str) (more : List (Str × Str)),
      IsRun is_upper L1 ∧ IsRun is_digit D1 ∧ more.length ≤ 3 ∧
      (∀ sg ∈ more, IsRun is_upper sg.1 ∧ IsRun is_digit sg.2) ∧
      s = L1 ++ (D1 ++ more.flatMap (fun sg => sg.1 ++ sg.2)) ∧
      parsed = segments_record L1 D1 more := by
  have hg : Grammar s := (parse_isSome_iff s).1 (by simp [h])
  rcases grammar_cases hg with hL | ⟨L1, D1, more, h1, hd1, hlen, hmore, hs⟩
  · left
    refine ⟨hL, ?_⟩
    rw [parse_letters s hL] at h
    exact (Option.some.inj h).symm
  · right
    refine ⟨L1, D1, more, h1, hd1, hlen, hmore, hs, ?_⟩
    rw [parse_segments L1 D1 more s h1 hd1 hlen hmore hs] at h
    exact (Option.some.inj h).symm



/-! ## The dash key of a word of the grammar -/

theorem replace_from_letters (b : Bool) (L t : Str) (hL : IsRun is_upper L) :
    replace_digit_runs_from b (L ++ t) = L ++ replace_digit_runs_from false t := by
  obtain ⟨hne, hall⟩ := hL
  induction L generalizing b with
  | nil => exact absurd rfl hne
  | cons a L ih =>
    have ha : is_digit a = false := is_upper_not_digit (hall a (by simp))
    cases L with
    | nil => simp [replace_digit_runs_from, ha]
    | cons d L =>
      have := ih false (by simp) (fun c hc => hall c (List.mem_cons_of_mem _ hc))
      simp only [List.cons_append, replace_digit_runs_from, ha, Bool.false_eq_true, if_false]
      simpa using this

theorem replace_from_digits_true (D t : Str) (hD : ∀ c ∈ D, is_digit c = true) :
    replace_digit_runs_from true (D ++ t) = replace_digit_runs_from true t := by
  induction D with
  | nil => rfl
  | cons d D ih =>
    have hd : is_digit d = true := hD d (by simp)
    simp only [List.cons_append, replace_digit_runs_from, hd, if_true]
    exact ih (fun c hc => hD c (List.mem_cons_of_mem _ hc))

theorem replace_from_digits (D t : Str) (hD : IsRun is_digit D) :
    replace_digit_runs_from false (D ++ t) = '-' :: replace_digit_runs_from true t := by
  obtain ⟨hne, hall⟩ := hD
  cases D with
  | nil => exact absurd rfl hne
  | cons d D =>
    have hd : is_digit d = true := hall d (by simp)
    have hrest := replace_from_digits_true D t (fun c hc => hall c (List.mem_cons_of_mem _ hc))
    simp only [List.cons_append, replace_digit_runs_from, hd, if_true, Bool.false_eq_true,
      if_false]
    exact congrArg _ hrest

theorem replace_from_segments (b : Bool) (segs : List (Str × Str))
    (hsegs : ∀ sg ∈ segs, IsRun is_upper sg.1 ∧ IsRun is_digit sg.2) :
    replace_digit_runs_from b (segs.flatMap (fun sg => sg.1 ++ sg.2)) =
      segs.flatMap (fun sg => sg.1 ++ ['-']) := by
  induction segs generalizing b with
  | nil => rfl
  | cons a rest ih =>
    have ha := hsegs a (by simp)
    simp only [List.flatMap_cons, List.append_assoc]
    rw [replace_from_letters b a.1 _ ha.1, replace_from_digits a.2 _ ha.2,
      ih true (fun sg hsg => hsegs sg (List.mem_cons_of_mem _ hsg))]
    simp

theorem flatMap_hyphen_eq (a : Str × Str) (rest : List (Str × Str)) :
    (a :: rest).flatMap (fun sg => sg.1 ++ ['-']) =
      ['-'].intercalate ((a :: rest).map Prod.fst) ++ ['-'] := by
  induction rest generalizing a with
  | nil => simp [List.intercalate]
  | cons b rest ih =>
    have := ih b
    simp only [List.flatMap_cons, List.map_cons] at this ⊢
    rw [this]
    simp [List.intercalate, List.intersperse]

theorem js_trim_id (x : Str) (h1 : ∀ a ∈ x.head?, is_js_space a = false)
    (h2 : ∀ a ∈ x.getLast?, is_js_space a = false) : js_trim x = x := by
  unfold js_trim
  have e1 : x.dropWhile is_js_space = x := by
    cases x with
    | nil => rfl
    | cons a t => simp [List.dropWhile_cons, h1 a (by simp)]
  rw [e1]
  have e2 : x.reverse.dropWhile is_js_space = x.reverse := by
    cases hx : x.reverse with
    | nil => rfl
    | cons a t =>
      have : x.getLast? = some a := by
        rw [← List.head?_reverse, hx]; rfl
      simp [List.dropWhile_cons, h2 a (by simp [this])]
  rw [e2, List.reverse_reverse]

theorem strip_trailing_hyphen_append (y : Str) : strip_trailing_hyphen (y ++ ['-']) = y := by
  simp [strip_trailing_hyphen]

theorem strip_trailing_hyphen_id (y : Str) (h : y.getLast? ≠ some '-') :
    strip_trailing_hyphen y = y := by
  simp [strip_trailing_hyphen, h]

theorem upper_not_space {c : Char} (h : is_upper c = true) : is_js_space c = false := by
  simp only [is_upper, is_js_space, decide_eq_true_eq, decide_eq_false_iff_not] at *
  omega

theorem upper_ne_hyphen {c : Char} (h : is_upper c = true) : c ≠ '-' := by
  rintro rfl
  revert h
  decide

/-- The dash key of one to four full segments: the letter runs joined by hyphens. -/
theorem dash_key_segments (L1 D1 : Str) (more : List (Str × Str))
    (h1 : IsRun is_upper L1) (hd1 : IsRun is_digit D1)
    (hmore : ∀ sg ∈ more, IsRun is_upper sg.1 ∧ IsRun is_digit sg.2) :
    dash_key (L1 ++ (D1 ++ more.flatMap (fun sg => sg.1 ++ sg.2))) =
      ['-'].intercalate (L1 :: more.map Prod.fst) := by
  have hflat : L1 ++ (D1 ++ more.flatMap (fun sg => sg.1 ++ sg.2)) =
      ((L1, D1) :: more).flatMap (fun sg => sg.1 ++ sg.2) := by simp
  have hall : ∀ sg ∈ (L1, D1) :: more, IsRun is_upper sg.1 ∧ IsRun is_digit sg.2 := by
    intro sg hsg
    rcases List.mem_cons.1 hsg with rfl | hsg
    · exact ⟨h1, hd1⟩
    · exact hmore sg hsg
  unfold dash_key replace_digit_runs
  rw [hflat, replace_from_segments false _ hall, flatMap_hyphen_eq, js_trim_id,
    strip_trailing_hyphen_append]
  · rfl
  · intro a ha
    obtain ⟨hne, hup⟩ := h1
    cases L1 with
    | nil => exact absurd rfl hne
    | cons c L1 =>
      cases more <;> simp [List.intercalate, List.intersperse] at ha <;> subst ha <;>
        exact upper_not_space (hup _ (by simp))
  · intro a ha
    simp at ha
    subst ha
    decide

/-- The dash key of a lone letter run is the run itself. -/
theorem dash_key_letters (L : Str) (hL : IsRun is_upper L) : dash_key L = L := by
  have h0 : replace_digit_runs L = L := by
    have := replace_from_letters false L [] hL
    simpa [replace_digit_runs, replace_digit_runs_from] using this
  obtain ⟨hne, hup⟩ := hL
  unfold dash_key
  rw [h0, js_trim_id, strip_trailing_hyphen_id]
  · intro hlast
    exact upper_ne_hyphen (hup _ (List.mem_of_getLast?_eq_some hlast)) rfl
  · intro a ha
    cases L with
    | nil => exact absurd rfl hne
    | cons c L => simp at ha; subst ha; exact upper_not_space (hup _ (by simp))
  · intro a ha
    exact upper_not_space (hup _ (List.mem_of_getLast?_eq_some ha))


/-! ## The loop body adds to the results it is given -/

theorem push_resolved_append (join : Str → Str → Str) (target : Property) (results : List Str)
    (num : Str) :
    push_resolved join target results num =
      (push_resolved join target [] num).map (results ++ ·) := by
  cases target with
  | inherited => rfl
  | record e =>
    simp only [push_resolved]
    split <;> simp

theorem resolve_number_append (join : Str → Str → Str) (store : Store)
    (parsed : ParsedSequence) (entry : Property) (dash_used : Bool) (results : List Str)
    (index : Nat) (num : Str) :
    resolve_number join store parsed entry dash_used results index num =
      (resolve_number join store parsed entry dash_used [] index num).map (results ++ ·) := by
  unfold resolve_number
  split
  · split
    · simp
    · exact push_resolved_append _ _ _ _
  · split
    · split
      · simp
      · exact push_resolved_append _ _ _ _
    · exact push_resolved_append _ _ _ _

theorem foldlM_append_results {β : Type} (f : List Str → β → Option (List Str))
    (hf : ∀ r b, f r b = (f [] b).map (r ++ ·)) (l : List β) (r : List Str) :
    l.foldlM f r = (l.foldlM f []).map (r ++ ·) := by
  induction l generalizing r with
  | nil => simp
  | cons b l ih =>
    simp only [List.foldlM_cons]
    rw [hf r b]
    cases hb : f [] b with
    | none => rfl
    | some x =>
      simp only [Option.map_some', Option.bind_eq_bind, Option.some_bind]
      rw [ih (r ++ x), ih x]
      cases l.foldlM f [] <;> simp

theorem dash_stage_append (join : Str → Str → Str) (store : Store) (results : List Str)
    (s : Str) :
    dash_stage join store results s =
      (dash_stage join store [] s).map (fun x => (x.1, results ++ x.2)) := by
  unfold dash_stage
  cases find_dash_entry store s with
  | none => simp
  | some d =>
    cases first_digit_run s with
    | none => rfl
    | some n =>
      cases d with
      | inherited => rfl
      | record e =>
        simp only
        split <;> simp

theorem process_sequence_append (join : Str → Str → Str) (store : Store) (results : List Str)
    (s : Str) :
    process_sequence join store results s =
      (process_sequence join store [] s).map (results ++ ·) := by
  unfold process_sequence
  rw [dash_stage_append]
  cases dash_stage join store [] s with
  | none => rfl
  | some x =>
    obtain ⟨dash_used, out⟩ := x
    simp only [Option.map_some']
    cases parse_sequence s with
    | none => simp
    | some parsed =>
      simp only
      cases store_get store (parsed.primary ++ '_' :: parsed.secondary) with
      | none => simp
      | some entry =>
        simp only
        have key := foldlM_append_results
          (fun acc (x : Nat × Str) =>
            resolve_number join store parsed entry dash_used acc x.1 x.2)
          (fun r b => resolve_number_append join store parsed entry dash_used r b.1 b.2)
        rw [key _ (results ++ out), key _ out]
        generalize List.foldlM (fun acc (x : Nat × Str) =>
            resolve_number join store parsed entry dash_used acc x.1 x.2) [] _ = o
        cases o <;> simp

theorem get_final_audio_paths_singleton (join : Str → Str → Str) (store : Store) (s : Str) :
    get_final_audio_paths join store [s] = process_sequence join store [] s := by
  simp [get_final_audio_paths]

theorem get_final_audio_paths_cons (join : Str → Str → Str) (store : Store) (s : Str)
    (xs : List Str) :
    get_final_audio_paths join store (s :: xs) =
      (process_sequence join store [] s).bind
        (fun a => (get_final_audio_paths join store xs).map (a ++ ·)) := by
  unfold get_final_audio_paths
  simp only [List.foldlM_cons, Option.bind_eq_bind]
  congr 1
  funext a
  exact foldlM_append_results _ (process_sequence_append join store) xs a

theorem get_final_audio_paths_append (join : Str → Str → Str) (store : Store)
    (xs ys : List Str) :
    get_final_audio_paths join store (xs ++ ys) =
      (get_final_audio_paths join store xs).bind
        (fun a => (get_final_audio_paths join store ys).map (a ++ ·)) := by
  induction xs with
  | nil =>
    simp only [List.nil_append]
    have : get_final_audio_paths join store [] = some [] := rfl
    rw [this]
    cases get_final_audio_paths join store ys <;> simp
  | cons s xs ih =>
    rw [List.cons_append, get_final_audio_paths_cons, get_final_audio_paths_cons, ih]
    cases process_sequence join store [] s with
    | none => rfl
    | some a =>
      cases get_final_audio_paths join store xs with
      | none => rfl
      | some b =>
        cases get_final_audio_paths join store ys <;> simp


/-! ## Store lookups and the first digit run -/

theorem prototype_keys_head : ∀ k ∈ object_prototype_keys, ∀ c ∈ k.head?, is_upper c = false := by
  decide

theorem not_inherited_of_upper_head {c : Char} {t : Str} (hc : is_upper c = true) :
    c :: t ∉ object_prototype_keys := by
  intro hmem
  have := prototype_keys_head (c :: t) hmem c (by simp)
  rw [hc] at this
  exact Bool.noConfusion this

theorem store_get_of_lookup {store : Store} {key : Str} {e : MappingRecord}
    (h : store.lookup key = some e) : store_get store key = some (.record e) := by
  simp [store_get, h]

theorem store_get_none_of_upper_head {store : Store} {c : Char} {t : Str}
    (hc : is_upper c = true) (h : store.lookup (c :: t) = none) :
    store_get store (c :: t) = none := by
  have h1 : c :: t ≠ "mappings".toList := by
    intro e
    have e' : c = 'm' := (List.cons.inj e).1
    subst e'
    revert hc
    decide
  have h2 : c :: t ≠ "dir".toList := by
    intro e
    have e' : c = 'd' := (List.cons.inj e).1
    subst e'
    revert hc
    decide
  simp only [store_get, h, not_inherited_of_upper_head hc, if_false, h1, h2, false_and,
    or_self]
  cases store.lookup "__proto__".toList <;> rfl

theorem store_get_record {store : Store} {key : Str} {e : MappingRecord}
    (h : store_get store key = some (.record e)) : store.lookup key = some e := by
  unfold store_get at h
  cases hl : store.lookup key with
  | none =>
    rw [hl] at h
    simp only at h
    split at h
    · simp at h
    · split at h
      · split at h <;> simp at h
      · simp at h
  | some e' =>
    rw [hl] at h
    simpa using h

theorem store_get_none {store : Store} {key : Str} (h : store_get store key = none) :
    store.lookup key = none := by
  unfold store_get at h
  cases hl : store.lookup key with
  | none => rfl
  | some e' => rw [hl] at h; simp at h

theorem first_digit_run_segments (L D t : Str) (hL : IsRun is_upper L) (hD : IsRun is_digit D)
    (ht : ∀ a ∈ t.head?, is_digit a = false) : first_digit_run (L ++ (D ++ t)) = some D := by
  obtain ⟨hdne, hdall⟩ := hD
  have hdrop : ∀ L : Str, (∀ c ∈ L, is_upper c = true) →
      (L ++ (D ++ t)).dropWhile (fun c => !is_digit c) = D ++ t := by
    intro L hL
    induction L with
    | nil =>
      cases D with
      | nil => exact absurd rfl hdne
      | cons d D => simp [List.dropWhile_cons, hdall d (by simp)]
    | cons a L ih =>
      have ha : is_digit a = false := is_upper_not_digit (hL a (by simp))
      simp only [List.cons_append, List.dropWhile_cons, ha, Bool.not_false, if_true]
      exact ih (fun c hc => hL c (List.mem_cons_of_mem _ hc))
  have htake : ∀ D : Str, (∀ c ∈ D, is_digit c = true) → (D ++ t).takeWhile is_digit = D := by
    intro D hD
    induction D with
    | nil =>
      cases t with
      | nil => rfl
      | cons a t => simp [List.takeWhile_cons, ht a (by simp)]
    | cons d D ih =>
      simp only [List.cons_append, List.takeWhile_cons, hD d (by simp), if_true]
      rw [ih (fun c hc => hD c (List.mem_cons_of_mem _ hc))]
  unfold first_digit_run
  rw [hdrop L hL.2]
  cases hDt : D ++ t with
  | nil =>
    cases D with
    | nil => exact absurd rfl hdne
    | cons d D => simp at hDt
  | cons a u =>
    simp only
    rw [← hDt, htake D hdall]

theorem cons_of_head {x : Str} {c : Char} (h : x.head? = some c) : ∃ t, x = c :: t := by
  cases x with
  | nil => simp at h
  | cons a t => exact ⟨t, by simp at h; rw [h]⟩

/-- The head of the dash key of an accepted sequence is an uppercase letter. -/
theorem dash_key_head_of_parsed {s : Str} {parsed : ParsedSequence}
    (h : parse_sequence s = some parsed) : ∃ c t, dash_key s = c :: t ∧ is_upper c = true := by
  rcases parse_cases h with ⟨hL, -⟩ | ⟨L1, D1, more, h1, hd1, -, hmore, hs, -⟩
  · rw [dash_key_letters s hL]
    obtain ⟨hne, hup⟩ := hL
    cases s with
    | nil => exact absurd rfl hne
    | cons c t => exact ⟨c, t, rfl, hup c (by simp)⟩
  · rw [hs, dash_key_segments L1 D1 more h1 hd1 hmore]
    obtain ⟨hne, hup⟩ := h1
    cases L1 with
    | nil => exact absurd rfl hne
    | cons c t =>
      have hh : (['-'].intercalate ((c :: t) :: more.map Prod.fst)).head? = some c := by
        cases more <;> simp [List.intercalate, List.intersperse]
      obtain ⟨u, hu⟩ := cons_of_head hh
      exact ⟨c, u, hu, hup c (by simp)⟩

/-- The primary field of an accepted sequence is a non-empty run of uppercase letters. -/
theorem primary_of_parsed {s : Str} {parsed : ParsedSequence}
    (h : parse_sequence s = some parsed) : IsRun is_upper parsed.primary := by
  rcases parse_cases h with ⟨hL, rfl⟩ | ⟨L1, D1, more, h1, -, -, -, -, rfl⟩
  · exact hL
  · exact h1

theorem find_dash_entry_none_of_parsed {store : Store} {s : Str} {parsed : ParsedSequence}
    (h : parse_sequence s = some parsed) (hdash : store.lookup (dash_key s) = none) :
    find_dash_entry store s = none := by
  obtain ⟨c, t, hk, hc⟩ := dash_key_head_of_parsed h
  unfold find_dash_entry
  rw [hk] at hdash ⊢
  exact store_get_none_of_upper_head hc hdash

theorem base_get_none_of_parsed {store : Store} {s : Str} {parsed : ParsedSequence}
    (h : parse_sequence s = some parsed) (rest : Str)
    (hbase : store.lookup (parsed.primary ++ '_' :: rest) = none) :
    store_get store (parsed.primary ++ '_' :: rest) = none := by
  obtain ⟨hne, hup⟩ := primary_of_parsed h
  cases hp : parsed.primary with
  | nil => exact absurd hp hne
  | cons c t =>
    rw [hp] at hbase hup
    exact store_get_none_of_upper_head (hup c (by simp)) hbase

theorem find_mapping_eq (mappings : List (Str × Str)) (num : Str) :
    find_mapping mappings num = mappings.find? (fun m => decide (m.1 = num)) := by
  unfold find_mapping
  have : (fun m : Str × Str => m.1 == num) = (fun m => decide (m.1 = num)) := by
    funext m
    simp [beq_eq_decide]
  rw [this]

/-- The `forEach` loop outside dash mode: every number is looked up in the base entry. -/
theorem forEach_base (join : Str → Str → Str) (store : Store) (parsed : ParsedSequence)
    (e : MappingRecord) (numbers : List Str) (n : Nat) (results : List Str) :
    (numbers.enumFrom n).foldlM
      (fun acc x => resolve_number join store parsed (.record e) false acc x.1 x.2) results =
    some (results ++ numbers.filterMap (fun num =>
      (e.mappings.find? (fun m => decide (m.1 = num))).map
        (fun m => join (normalize_dir e.dir) m.2))) := by
  induction numbers generalizing n results with
  | nil => simp
  | cons num numbers ih =>
    have step : resolve_number join store parsed (.record e) false results n num =
        some (results ++ ((e.mappings.find? (fun m => decide (m.1 = num))).map
          (fun m => join (normalize_dir e.dir) m.2)).toList) := by
      simp only [resolve_number, Bool.false_eq_true, and_false, if_false, push_resolved,
        find_mapping_eq]
      cases e.mappings.find? (fun m => decide (m.1 = num)) <;> simp
    simp only [List.enumFrom_cons, List.foldlM_cons, step, Option.bind_eq_bind,
      Option.some_bind, ih, List.filterMap_cons]
    cases e.mappings.find? (fun m => decide (m.1 = num)) <;> simp


/-! ## The claims about `parse_sequence` -/

theorem forEach_base_paths (join : Str → Str → Str) (store : Store) (parsed : ParsedSequence)
    (e : MappingRecord) (numbers : List Str) (results : List Str) :
    numbers.enum.foldlM
      (fun acc x => resolve_number join store parsed (.record e) false acc x.1 x.2) results =
    some (results ++ resolved_paths join (normalize_dir e.dir) e.mappings numbers) :=
  forEach_base join store parsed e numbers 0 results

theorem grammar_head {c : Char} {s : Str} (h : Grammar (c :: s)) : is_upper c = true := by
  obtain ⟨L1, D1, pairs, ⟨hne, hup⟩, -, -, -, hs⟩ := h
  cases L1 with
  | nil => exact absurd rfl hne
  | cons a L1 =>
    simp only [List.cons_append, List.cons.injEq] at hs
    rw [hs.1]
    exact hup a (by simp)

theorem grammar_chars {s : Str} (h : Grammar s) :
    ∀ c ∈ s, is_upper c = true ∨ is_digit c = true := by
  obtain ⟨L1, D1, pairs, hL1, hD1, -, hgood, rfl⟩ := h
  intro c hc
  simp only [List.mem_append, List.mem_flatMap] at hc
  rcases hc with (hc | hc) | ⟨pr, hpr, hc | hc⟩
  · exact Or.inl (hL1.2 c hc)
  · rcases hD1 with rfl | hD1
    · simp at hc
    · exact Or.inr (hD1.2 c hc)
  · exact Or.inl ((hgood pr hpr).1.2 c hc)
  · exact Or.inr ((hgood pr hpr).2.2 c hc)

theorem parse_none_of_not_grammar {s : Str} (h : ¬ Grammar s) : parse_sequence s = none := by
  cases hp : parse_sequence s with
  | none => rfl
  | some parsed => exact absurd ((parse_isSome_iff s).1 (by simp [hp])) h

/-- C2. Parse binding: on the concatenation of one to four segments, each a non-empty run
of letters `A-Z` followed by a non-empty run of digits, `parse_sequence` returns the record
whose primary, secondary, tertiary and quaternary fields are the first to fourth letter
runs, whole (the empty string for a run that is absent), and whose numbers are the digit
runs in order of appearance; on a lone letter run it returns that run as primary, the
other fields empty and no numbers. -/
theorem parse_binding (segs : List (Str × Str)) (L : Str)
    (hlen1 : 1 ≤ segs.length) (hlen4 : segs.length ≤ 4)
    (hsegs : ∀ sg ∈ segs, IsRun is_upper sg.1 ∧ IsRun is_digit sg.2)
    (hL : IsRun is_upper L) :
    parse_sequence (segs.flatMap (fun sg => sg.1 ++ sg.2)) =
      some { primary := (segs.map Prod.fst).getD 0 []
             secondary := (segs.map Prod.fst).getD 1 []
             tertiary := (segs.map Prod.fst).getD 2 []
             quaternary := (segs.map Prod.fst).getD 3 []
             numbers := segs.map Prod.snd } ∧
    parse_sequence L = some ⟨L, [], [], [], []⟩ := by
  refine ⟨?_, parse_letters L hL⟩
  cases segs with
  | nil => simp at hlen1
  | cons a more =>
    have ha := hsegs a (by simp)
    rw [parse_segments a.1 a.2 more _ ha.1 ha.2 (by simpa using hlen4)
      (fun sg hsg => hsegs sg (List.mem_cons_of_mem _ hsg)) (by simp)]
    simp [segments_record]

/-- The worked examples of C2: `WA1BC2` and the lone run `WA`. -/
theorem parse_binding_witness :
    parse_sequence "WA1BC2".toList =
        some ⟨"WA".toList, "BC".toList, [], [], ["1".toList, "2".toList]⟩ ∧
      parse_sequence "WA".toList = some ⟨"WA".toList, [], [], [], []⟩ :=
  parse_binding [("WA".toList, "1".toList), ("BC".toList, "2".toList)] "WA".toList
    (by decide) (by decide) (by decide) (by decide)

/-- C3. Parse acceptance: `parse_sequence` returns a record exactly on the words of the
grammar (one letter run, an optional digit run, zero to three (letters, digits) pairs,
nothing else).  So it returns `null` on the empty string, on a string that starts with a
digit, on a string with a character outside `A-Z` and `0-9`, on `WA1BC` and on
`A1B2C3D4E5`. -/
theorem parse_acceptance :
    (∀ s : Str, (parse_sequence s).isSome = true ↔ Grammar s) ∧
    parse_sequence [] = none ∧
    (∀ (c : Char) (s : Str), is_digit c = true → parse_sequence (c :: s) = none) ∧
    (∀ (s : Str) (c : Char), c ∈ s → is_upper c = false → is_digit c = false →
      parse_sequence s = none) ∧
    parse_sequence "WA1BC".toList = none ∧
    parse_sequence "A1B2C3D4E5".toList = none := by
  refine ⟨parse_isSome_iff, by decide, ?_, ?_, by decide, by decide⟩
  · intro c s hc
    apply parse_none_of_not_grammar
    intro hg
    have := is_upper_not_digit (grammar_head hg)
    rw [hc] at this
    exact Bool.noConfusion this
  · intro s c hcs hu hd
    apply parse_none_of_not_grammar
    intro hg
    rcases grammar_chars hg c hcs with h | h
    · rw [hu] at h; exact Bool.noConfusion h
    · rw [hd] at h; exact Bool.noConfusion h

/-- The worked examples of C3: a lowercase letter, a space and a hyphen are refused,
`WA1` is accepted. -/
theorem parse_acceptance_witness :
    parse_sequence "wa1".toList = none ∧ parse_sequence "WA 1".toList = none ∧
      parse_sequence "WA-1".toList = none ∧ Grammar "WA1".toList :=
  ⟨parse_acceptance.2.2.2.1 "wa1".toList 'w' (by decide) (by decide) (by decide),
   parse_acceptance.2.2.2.1 "WA 1".toList ' ' (by decide) (by decide) (by decide),
   parse_acceptance.2.2.2.1 "WA-1".toList '-' (by decide) (by decide) (by decide),
   (parse_acceptance.1 "WA1".toList).1 (by decide)⟩


/-! ## The claims about the resolution of one sequence -/

theorem dash_stage_off {join : Str → Str → Str} {store : Store} {s : Str}
    (results : List Str) (h : find_dash_entry store s = none) :
    dash_stage join store results s = some (false, results) := by
  simp [dash_stage, h]

theorem dash_stage_on {join : Str → Str → Str} {store : Store} {s num : Str}
    {e : MappingRecord} (results : List Str) (h : store.lookup (dash_key s) = some e)
    (hnum : first_digit_run s = some num) :
    dash_stage join store results s =
      some (true, results ++ resolved_paths join e.dir e.mappings [num]) := by
  have hfind : find_dash_entry store s = some (.record e) := store_get_of_lookup h
  simp only [dash_stage, hfind, hnum, find_mapping_eq, resolved_paths, List.filterMap_cons,
    List.filterMap_nil]
  cases e.mappings.find? (fun m => decide (m.1 = num)) <;> simp

/-- C1. Non-dash resolution: when the dash key of a sequence is no key of the store, the
sequence is accepted by `parse_sequence` and its base key `primary_secondary` holds the
record `{dir, mappings}`, the sequence adds to the results, in the order of
`parsed.numbers`, the path `join (normalize_dir dir) v` for every number that is a key of
`mappings` (`v` the value of the first pair with that key) and nothing for the other
numbers; every number is looked up in that one record. -/
theorem non_dash_resolution (join : Str → Str → Str) (store : Store) (s : Str)
    (parsed : ParsedSequence) (dir : Str) (mappings : List (Str × Str)) (results : List Str)
    (hdash : store.lookup (dash_key s) = none)
    (hparse : parse_sequence s = some parsed)
    (hbase : store.lookup (parsed.primary ++ '_' :: parsed.secondary) = some ⟨dir, mappings⟩) :
    process_sequence join store results s =
        some (results ++ resolved_paths join (normalize_dir dir) mappings parsed.numbers) ∧
      get_final_audio_paths join store [s] =
        some (resolved_paths join (normalize_dir dir) mappings parsed.numbers) := by
  have key : ∀ results : List Str, process_sequence join store results s =
      some (results ++ resolved_paths join (normalize_dir dir) mappings parsed.numbers) := by
    intro results
    simp only [process_sequence, dash_stage_off results (find_dash_entry_none_of_parsed hparse hdash),
      hparse, store_get_of_lookup hbase, Bool.false_eq_true, if_false]
    exact forEach_base_paths join store parsed ⟨dir, mappings⟩ parsed.numbers results
  refine ⟨key results, ?_⟩
  rw [get_final_audio_paths_singleton, key []]
  rfl

/-- The worked example of C1: the store with the base entry `WA_` and the input `WA1`. -/
theorem non_dash_resolution_witness :
    get_final_audio_paths posix_join example_base_store ["WA1".toList] =
      some ["sounds/wa/one.mp3".toList] :=
  (non_dash_resolution posix_join example_base_store "WA1".toList
    ⟨"WA".toList, [], [], [], ["1".toList]⟩ "sounds/wa".toList
    [("1".toList, "one.mp3".toList)] [] (by decide) (by decide) (by decide)).2.trans
    (by decide)

/-- C4. Dash mode consumes the first number: for an accepted sequence with exactly one
digit run `D1` whose dash key holds the record `{dd, dm}` in the store, the sequence adds
`join dd v` when `dm` has a pair with key `D1` (`v` the value of the first one) and
nothing otherwise, whatever the store holds under the base key: `D1` is not looked up in
the base entry. -/
theorem dash_consumes_first_number (join : Str → Str → Str) (store : Store) (s : Str)
    (parsed : ParsedSequence) (D1 dd : Str) (dm : List (Str × Str)) (results : List Str)
    (hparse : parse_sequence s = some parsed) (hnum : parsed.numbers = [D1])
    (hdash : store.lookup (dash_key s) = some ⟨dd, dm⟩) :
    process_sequence join store results s = some (results ++ resolved_paths join dd dm [D1]) ∧
      get_final_audio_paths join store [s] = some (resolved_paths join dd dm [D1]) := by
  have hrun : first_digit_run s = some D1 := by
    rcases parse_cases hparse with ⟨-, rfl⟩ | ⟨L1, D, more, h1, hd, -, -, hs, rfl⟩
    · simp at hnum
    · simp only [segments_record, List.cons.injEq, List.map_eq_nil_iff] at hnum
      obtain ⟨rfl, rfl⟩ := hnum
      rw [hs]
      exact first_digit_run_segments L1 D _ h1 hd (by simp)
  have key : ∀ results : List Str, process_sequence join store results s =
      some (results ++ resolved_paths join dd dm [D1]) := by
    intro results
    simp only [process_sequence, dash_stage_on results hdash hrun, hparse, if_true, hnum,
      List.tail_cons, List.enum_nil, List.foldlM_nil]
    cases store_get store (parsed.primary ++ '_' :: parsed.secondary) <;> rfl
  refine ⟨key results, ?_⟩
  rw [get_final_audio_paths_singleton, key []]
  rfl

/-- The worked example of C4: with the bare key `WA` in the store, `WA1` gives the dash
path only. -/
theorem dash_consumes_first_number_witness :
    get_final_audio_paths posix_join example_dash_store ["WA1".toList] =
      some ["sounds/dash/dashone.mp3".toList] :=
  (dash_consumes_first_number posix_join example_dash_store "WA1".toList
    ⟨"WA".toList, [], [], [], ["1".toList]⟩ "1".toList "sounds/dash".toList
    [("1".toList, "dashone.mp3".toList)] [] (by decide) (by decide) (by decide)).2.trans
    (by decide)

/-- C7. A skipped sequence keeps exactly its dash-stage output: when the resolution of a
sequence does not raise, and the sequence fails the grammar or parses with a base key that
is no key of the store, what it adds is the dash-stage output and nothing else: the path
for the first digit run in the table of the dash entry when the dash key is in the store
and the table has that key, and nothing in every other case. -/
theorem skipped_sequence_keeps_dash_output (join : Str → Str → Str) (store : Store) (s : Str)
    (out : List Str) (hok : get_final_audio_paths join store [s] = some out)
    (hskip : parse_sequence s = none ∨
      ∃ parsed, parse_sequence s = some parsed ∧
        store.lookup (parsed.primary ++ '_' :: parsed.secondary) = none) :
    out = dash_output join store s := by
  rw [get_final_audio_paths_singleton] at hok
  have hproc : process_sequence join store [] s =
      (dash_stage join store [] s).map (fun x => x.2) := by
    unfold process_sequence
    cases dash_stage join store [] s with
    | none => rfl
    | some x =>
      obtain ⟨dash_used, r⟩ := x
      rcases hskip with hnone | ⟨parsed, hp, hbase⟩
      · simp [hnone]
      · simp [hp, base_get_none_of_parsed hp _ hbase]
  rw [hproc] at hok
  cases hd : find_dash_entry store s with
  | none =>
    have hl : store.lookup (dash_key s) = none := store_get_none hd
    rw [dash_stage_off [] hd] at hok
    simp only [dash_output, hl]
    simpa using hok.symm
  | some d =>
    cases hn : first_digit_run s with
    | none => simp [dash_stage, hd, hn] at hok
    | some num =>
      cases d with
      | inherited => simp [dash_stage, hd, hn] at hok
      | record e =>
        have hl : store.lookup (dash_key s) = some e := store_get_record hd
        rw [dash_stage_on [] hl hn] at hok
        simp only [dash_output, hl, hn]
        simpa using hok.symm

/-- The worked example of C7: `WA1BC2` parses, its base key `WA_BC` is absent, and it
keeps the path of its dash stage. -/
theorem skipped_sequence_keeps_dash_output_witness :
    ["sounds/dash/dashone.mp3".toList] =
      dash_output posix_join example_hyphen_store "WA1BC2".toList :=
  skipped_sequence_keeps_dash_output posix_join example_hyphen_store "WA1BC2".toList
    ["sounds/dash/dashone.mp3".toList] (by decide)
    (Or.inr ⟨⟨"WA".toList, "BC".toList, [], [], ["1".toList, "2".toList]⟩,
      by decide, by decide⟩)


/-! ## The claims about the batch -/

/-- C5 (the code departs from the claim). A sequence without a digit whose dash key is in
the store makes the whole call raise: `sequence.match(/\d+/)` is `null` and its index 0 is
read.  With the store the preload builds for the primary `WA-BC`, the input `WA-BC`
raises, alone and after a sequence that resolves. -/
theorem dash_probe_without_digit_raises (join : Str → Str → Str) :
    get_final_audio_paths join example_hyphen_store ["WA-BC".toList] = none ∧
      get_final_audio_paths join example_hyphen_store ["WA1BC2".toList, "WA-BC".toList] =
        none := by
  have hfind : find_dash_entry example_hyphen_store "WA-BC".toList =
      some (.record ⟨"sounds/dash".toList, [("1".toList, "dashone.mp3".toList)]⟩) := by
    decide
  have hrun : first_digit_run "WA-BC".toList = none := by decide
  have hraise : ∀ results : List Str,
      process_sequence join example_hyphen_store results "WA-BC".toList = none := by
    intro results
    simp only [process_sequence, dash_stage, hfind, hrun]
  constructor
  · rw [get_final_audio_paths_singleton, hraise]
  · rw [get_final_audio_paths_cons]
    have : get_final_audio_paths join example_hyphen_store ["WA-BC".toList] = none := by
      rw [get_final_audio_paths_singleton, hraise]
    rw [this]
    cases process_sequence join example_hyphen_store [] "WA1BC2".toList <;> rfl

/-- C6. Batch resolution is a concatenation in input order: when the resolution of `xs`
and of `ys` does not raise, the result for `xs ++ ys` is the result for `xs` followed by
the result for `ys`; and the result for `xs` is the concatenation, in input order, of the
results for its one-element lists. -/
theorem batch_concatenation (join : Str → Str → Str) (store : Store) (xs ys : List Str)
    (a b : List Str) (hx : get_final_audio_paths join store xs = some a)
    (hy : get_final_audio_paths join store ys = some b) :
    get_final_audio_paths join store (xs ++ ys) = some (a ++ b) ∧
      ∃ outs : List (List Str),
        List.Forall₂ (fun s o => get_final_audio_paths join store [s] = some o) xs outs ∧
          a = outs.flatten := by
  constructor
  · rw [get_final_audio_paths_append, hx, hy]
    rfl
  · clear hy
    induction xs generalizing a with
    | nil =>
      have : get_final_audio_paths join store [] = some [] := rfl
      rw [this] at hx
      exact ⟨[], List.Forall₂.nil, by simpa using hx.symm⟩
    | cons s xs ih =>
      rw [get_final_audio_paths_cons] at hx
      cases h1 : process_sequence join store [] s with
      | none => rw [h1] at hx; simp at hx
      | some a1 =>
        cases h2 : get_final_audio_paths join store xs with
        | none => rw [h1, h2] at hx; simp at hx
        | some a2 =>
          rw [h1, h2] at hx
          obtain ⟨outs, houts, rfl⟩ := ih a2 h2
          refine ⟨a1 :: outs, List.Forall₂.cons ?_ houts, ?_⟩
          · rw [get_final_audio_paths_singleton, h1]
          · simpa using hx.symm

/-- The worked example of C6: the batch `WA1`, then `ZZ9` and `WA1`. -/
theorem batch_concatenation_witness :
    get_final_audio_paths posix_join example_base_store
        (["WA1".toList] ++ ["ZZ9".toList, "WA1".toList]) =
      some (["sounds/wa/one.mp3".toList] ++ ["sounds/wa/one.mp3".toList]) :=
  (batch_concatenation posix_join example_base_store ["WA1".toList]
    ["ZZ9".toList, "WA1".toList] ["sounds/wa/one.mp3".toList] ["sounds/wa/one.mp3".toList]
    (by decide) (by decide)).1

/-- C8, as stated, fails: `WA1BC2` parses, its base key `WA_BC` is no key of the store
built for the primary `WA-BC`, and yet the sequence contributes the path of its dash
stage, so the batch differs from the batch without it. -/
theorem missing_base_counterexample :
    parse_sequence "WA1BC2".toList =
        some ⟨"WA".toList, "BC".toList, [], [], ["1".toList, "2".toList]⟩ ∧
      example_hyphen_store.lookup "WA_BC".toList = none ∧
      get_final_audio_paths posix_join example_hyphen_store ["WA1BC2".toList] =
        some ["sounds/dash/dashone.mp3".toList] ∧
      get_final_audio_paths posix_join example_hyphen_store ["WA1BC2".toList] ≠
        get_final_audio_paths posix_join example_hyphen_store [] := by
  decide

/-- C8, amended. A sequence that parses, whose base key is no key of the store and whose
dash key is no key of the store either, contributes no path, and the result of a batch
that contains it is the result of the batch without it. -/
theorem missing_base_contributes_nothing (join : Str → Str → Str) (store : Store)
    (xs ys : List Str) (s : Str) (parsed : ParsedSequence)
    (hparse : parse_sequence s = some parsed)
    (hbase : store.lookup (parsed.primary ++ '_' :: parsed.secondary) = none)
    (hdash : store.lookup (dash_key s) = none) :
    get_final_audio_paths join store [s] = some [] ∧
      get_final_audio_paths join store (xs ++ s :: ys) =
        get_final_audio_paths join store (xs ++ ys) := by
  have hproc : process_sequence join store [] s = some [] := by
    simp [process_sequence, dash_stage_off [] (find_dash_entry_none_of_parsed hparse hdash),
      hparse, base_get_none_of_parsed hparse _ hbase]
  have hone : get_final_audio_paths join store [s] = some [] := by
    rw [get_final_audio_paths_singleton, hproc]
  refine ⟨hone, ?_⟩
  rw [get_final_audio_paths_append, get_final_audio_paths_append, get_final_audio_paths_cons,
    hproc]
  cases get_final_audio_paths join store xs with
  | none => rfl
  | some a => cases get_final_audio_paths join store ys <;> simp

/-- The worked example of C8: `ZZ9` between two sequences that resolve. -/
theorem missing_base_contributes_nothing_witness :
    get_final_audio_paths posix_join example_base_store ["ZZ9".toList] = some [] ∧
      get_final_audio_paths posix_join example_base_store
          (["WA1".toList] ++ "ZZ9".toList :: ["WA1".toList]) =
        get_final_audio_paths posix_join example_base_store
          (["WA1".toList] ++ ["WA1".toList]) :=
  missing_base_contributes_nothing posix_join example_base_store ["WA1".toList]
    ["WA1".toList] "ZZ9".toList ⟨"ZZ".toList, [], [], [], ["9".toList]⟩
    (by decide) (by decide) (by decide)


/-! ## Directory normalisation -/

theorem remove_first_of_head (pat b : Str) (hne : pat ≠ []) :
    remove_first pat (pat ++ b) = b := by
  cases hp : pat ++ b with
  | nil =>
    cases pat with
    | nil => exact absurd rfl hne
    | cons a t => simp at hp
  | cons c cs =>
    have hpre : pat.isPrefixOf (c :: cs) = true := by
      rw [← hp, List.isPrefixOf_iff_prefix]
      exact List.prefix_append pat b
    simp only [remove_first, hpre, if_true]
    rw [← hp, List.drop_left]

theorem remove_first_cons_of_not (pat : Str) (c : Char) (cs : Str)
    (h : pat.isPrefixOf (c :: cs) = false) :
    remove_first pat (c :: cs) = c :: remove_first pat cs := by
  simp [remove_first, h]

theorem remove_first_leftmost (pat : Str) (hne : pat ≠ []) (a b : Str)
    (hfirst : ¬ pat <:+: a ++ pat.dropLast) : remove_first pat (a ++ pat ++ b) = a ++ b := by
  induction a with
  | nil => simpa using remove_first_of_head pat b hne
  | cons x a ih =>
    have hpre : pat.isPrefixOf (x :: a ++ pat ++ b) = false := by
      rw [Bool.eq_false_iff]
      intro hp
      rw [List.isPrefixOf_iff_prefix] at hp
      apply hfirst
      have h2 : (x :: a ++ pat.dropLast) <+: (x :: a ++ pat ++ b) := by
        have : pat.dropLast <+: pat := List.dropLast_prefix pat
        obtain ⟨t, ht⟩ := this
        refine ⟨t ++ b, ?_⟩
        have e : x :: a ++ pat ++ b = x :: a ++ (pat.dropLast ++ t) ++ b := by rw [ht]
        rw [e]
        simp
      have hlen : pat.length ≤ (x :: a ++ pat.dropLast).length := by
        have : 0 < pat.length := List.length_pos.2 hne
        simp
        omega
      exact (List.prefix_of_prefix_length_le hp h2 hlen).isInfix
    have hrec : ¬ pat <:+: a ++ pat.dropLast := by
      intro h
      apply hfirst
      obtain ⟨u, v, huv⟩ := h
      exact ⟨x :: u, v, by simp [← huv]⟩
    have e : x :: a ++ pat ++ b = x :: (a ++ pat ++ b) := by simp
    rw [e] at hpre ⊢
    rw [remove_first_cons_of_not pat x _ hpre, ih hrec]
    simp

theorem remove_first_absent (pat : Str) (d : Str) (habs : ¬ pat <:+: d) :
    remove_first pat d = d := by
  induction d with
  | nil => rfl
  | cons c cs ih =>
    have hpre : pat.isPrefixOf (c :: cs) = false := by
      rw [Bool.eq_false_iff]
      intro hp
      rw [List.isPrefixOf_iff_prefix] at hp
      exact habs hp.isInfix
    have hrec : ¬ pat <:+: cs := by
      intro h
      apply habs
      obtain ⟨u, v, huv⟩ := h
      exact ⟨c :: u, v, by simp [← huv]⟩
    rw [remove_first_cons_of_not pat c cs hpre, ih hrec]

theorem process_sequence_non_dash (join : Str → Str → Str) (store : Store) (s : Str)
    (parsed : ParsedSequence) (e : MappingRecord) (results : List Str)
    (hdash : store.lookup (dash_key s) = none) (hparse : parse_sequence s = some parsed)
    (hbase : store.lookup (parsed.primary ++ '_' :: parsed.secondary) = some e) :
    process_sequence join store results s =
      some (results ++ resolved_paths join (normalize_dir e.dir) e.mappings parsed.numbers) := by
  simp only [process_sequence,
    dash_stage_off results (find_dash_entry_none_of_parsed hparse hdash),
    hparse, store_get_of_lookup hbase, Bool.false_eq_true, if_false]
  exact forEach_base_paths join store parsed e parsed.numbers results

/-- C9, as stated, fails: the directory `sounds\domestic\wa` does not start with
`domestic\`, and yet it is changed: the occurrence inside it is removed. -/
theorem normalize_dir_inner_counterexample :
    domestic_literal.isPrefixOf "sounds\\domestic\\wa".toList = false ∧
      normalize_dir "sounds\\domestic\\wa".toList = "sounds\\wa".toList ∧
      normalize_dir "sounds\\domestic\\wa".toList ≠ "sounds\\domestic\\wa".toList := by
  decide

/-- C9, amended. The directory joined with the mapped value is `d` with the leftmost
occurrence of `domestic\` removed, wherever it stands in `d`: a directory that starts with
`domestic\` loses that leading occurrence, a directory without the literal is unchanged,
and what follows the leftmost occurrence is kept as it is, further occurrences included.
The path pushed for a number found in the base entry is `join (normalize_dir d) v`. -/
theorem normalize_dir_removes_leftmost :
    (∀ b : Str, normalize_dir (domestic_literal ++ b) = b) ∧
    (∀ a b : Str, ¬ domestic_literal <:+: a ++ domestic_literal.dropLast →
      normalize_dir (a ++ domestic_literal ++ b) = a ++ b) ∧
    (∀ d : Str, ¬ domestic_literal <:+: d → normalize_dir d = d) ∧
    (∀ (join : Str → Str → Str) (d v : Str),
      get_final_audio_paths join [("WA_".toList, ⟨d, [("1".toList, v)]⟩)] ["WA1".toList] =
        some [join (normalize_dir d) v]) ∧
    posix_join (normalize_dir "domestic\\sounds\\wa".toList) "one.mp3".toList =
      "sounds\\wa/one.mp3".toList ∧
    normalize_dir "domestic\\a\\domestic\\b".toList = "a\\domestic\\b".toList := by
  have hne : domestic_literal ≠ [] := by decide
  refine ⟨fun b => remove_first_of_head _ b hne,
    fun a b h => remove_first_leftmost _ hne a b h,
    fun d h => remove_first_absent _ d h, ?_, by decide, by decide⟩
  intro join d v
  rw [get_final_audio_paths_singleton,
    process_sequence_non_dash join _ "WA1".toList ⟨"WA".toList, [], [], [], ["1".toList]⟩
      ⟨d, [("1".toList, v)]⟩ [] (by rfl) (by decide) (by rfl)]
  simp [resolved_paths]


/-! ## The dash key of an accepted sequence -/

theorem intercalate_cons_cons (r r2 : Str) (rest : List Str) :
    ['-'].intercalate (r :: r2 :: rest) = r ++ '-' :: ['-'].intercalate (r2 :: rest) := by
  simp [List.intercalate, List.intersperse]

/-- Letter runs joined by hyphens: every character is a letter or a hyphen, and the first
and the last are letters. -/
theorem intercalate_runs (runs : List Str) (hne : runs ≠ [])
    (hr : ∀ r ∈ runs, IsRun is_upper r) :
    ['-'].intercalate runs ≠ [] ∧
    (∀ c ∈ ['-'].intercalate runs, is_upper c = true ∨ c = '-') ∧
    (∀ c ∈ (['-'].intercalate runs).head?, is_upper c = true) ∧
    (∀ c ∈ (['-'].intercalate runs).getLast?, is_upper c = true) := by
  induction runs with
  | nil => exact absurd rfl hne
  | cons r rest ih =>
    obtain ⟨hrne, hrup⟩ := hr r (by simp)
    cases rest with
    | nil =>
      have e : ['-'].intercalate [r] = r := by simp [List.intercalate]
      rw [e]
      refine ⟨hrne, fun c hc => Or.inl (hrup c hc), ?_, ?_⟩
      · intro c hc
        cases r with
        | nil => simp at hc
        | cons a t => simp at hc; subst hc; exact hrup _ (by simp)
      · intro c hc
        exact hrup c (List.mem_of_getLast?_eq_some hc)
    | cons r2 rest =>
      obtain ⟨ihne, ihall, -, ihlast⟩ :=
        ih (by simp) (fun x hx => hr x (List.mem_cons_of_mem _ hx))
      rw [intercalate_cons_cons]
      refine ⟨by simp, ?_, ?_, ?_⟩
      · intro c hc
        rcases List.mem_append.1 hc with hc | hc
        · exact Or.inl (hrup c hc)
        · rcases List.mem_cons.1 hc with rfl | hc
          · exact Or.inr rfl
          · exact ihall c hc
      · intro c hc
        cases r with
        | nil => exact absurd rfl hrne
        | cons a t => simp at hc; subst hc; exact hrup _ (by simp)
      · intro c hc
        apply ihlast c
        have e : r ++ '-' :: ['-'].intercalate (r2 :: rest) =
            (r ++ ['-']) ++ ['-'].intercalate (r2 :: rest) := by simp
        rw [e, List.getLast?_append_of_ne_nil _ ihne] at hc
        exact hc

theorem run_not_isEmpty {p : Char → Bool} {r : Str} (h : IsRun p r) :
    (!r.isEmpty) = true := by
  obtain ⟨hne, -⟩ := h
  cases r with
  | nil => exact absurd rfl hne
  | cons a t => rfl

theorem hyphen_not_digit : is_digit '-' = false := by decide

theorem hyphen_not_upper : is_upper '-' = false := by decide

/-- C10. Dash key of a well-formed sequence: for a sequence accepted by
`parse_sequence`, the dash key is the letter runs of the sequence, in order of appearance
(the non-empty ones among primary, secondary, tertiary, quaternary), joined by single
hyphens; it holds no digit, and neither starts nor ends with a hyphen. -/
theorem dash_key_of_accepted (s : Str) (parsed : ParsedSequence)
    (h : parse_sequence s = some parsed) :
    dash_key s = ['-'].intercalate
      ([parsed.primary, parsed.secondary, parsed.tertiary, parsed.quaternary].filter
        (fun r => !r.isEmpty)) ∧
    (∀ c ∈ dash_key s, is_digit c = false) ∧
    (dash_key s).head? ≠ some '-' ∧ (dash_key s).getLast? ≠ some '-' := by
  have main : ∃ runs : List Str, runs ≠ [] ∧ (∀ r ∈ runs, IsRun is_upper r) ∧
      dash_key s = ['-'].intercalate runs ∧
      [parsed.primary, parsed.secondary, parsed.tertiary, parsed.quaternary].filter
        (fun r => !r.isEmpty) = runs := by
    rcases parse_cases h with ⟨hL, rfl⟩ | ⟨L1, D1, more, h1, hd1, hlen, hmore, hs, rfl⟩
    · refine ⟨[s], by simp, by simpa using hL, ?_, ?_⟩
      · rw [dash_key_letters s hL]; simp [List.intercalate]
      · have := run_not_isEmpty hL
        simp [List.filter, this]
    · refine ⟨L1 :: more.map Prod.fst, by simp, ?_, ?_, ?_⟩
      · intro r hr
        rcases List.mem_cons.1 hr with rfl | hr
        · exact h1
        · obtain ⟨sg, hsg, rfl⟩ := List.mem_map.1 hr
          exact (hmore sg hsg).1
      · rw [hs, dash_key_segments L1 D1 more h1 hd1 hmore]
      · have n1 := run_not_isEmpty h1
        match more, hlen, hmore with
        | [], _, _ => simp [segments_record, List.filter, n1]
        | [a], _, hm =>
          have na := run_not_isEmpty (hm a (by simp)).1
          simp [segments_record, List.filter, n1, na]
        | [a, b], _, hm =>
          have na := run_not_isEmpty (hm a (by simp)).1
          have nb := run_not_isEmpty (hm b (by simp)).1
          simp [segments_record, List.filter, n1, na, nb]
        | [a, b, c], _, hm =>
          have na := run_not_isEmpty (hm a (by simp)).1
          have nb := run_not_isEmpty (hm b (by simp)).1
          have nc := run_not_isEmpty (hm c (by simp)).1
          simp [segments_record, List.filter, n1, na, nb, nc]
        | _ :: _ :: _ :: _ :: _, hl, _ => simp at hl
  obtain ⟨runs, hne, hruns, hkey, hfilter⟩ := main
  obtain ⟨-, hall, hhead, hlast⟩ := intercalate_runs runs hne hruns
  rw [hfilter, hkey]
  refine ⟨rfl, ?_, ?_, ?_⟩
  · intro c hc
    rcases hall c hc with hu | rfl
    · exact is_upper_not_digit hu
    · exact hyphen_not_digit
  · intro hc
    have := hhead '-' (by simp [hc])
    rw [hyphen_not_upper] at this
    exact Bool.noConfusion this
  · intro hc
    have := hlast '-' (by simp [hc])
    rw [hyphen_not_upper] at this
    exact Bool.noConfusion this

/-- The worked examples of C10: `AB12CD34` has the dash key `AB-CD`. -/
theorem dash_key_of_accepted_witness : dash_key "AB12CD34".toList = "AB-CD".toList :=
  (dash_key_of_accepted "AB12CD34".toList
    ⟨"AB".toList, "CD".toList, [], [], ["12".toList, "34".toList]⟩ (by decide)).1.trans
    (by decide)


/-! ## The store built by the preload -/

theorem lookup_cons_eq (key k : Str) (v : MappingRecord) (store : Store) :
    List.lookup key ((k, v) :: store) = if key = k then some v else store.lookup key := by
  by_cases h : key = k
  · simp [List.lookup_cons, h]
  · have b : (key == k) = false := by simpa using h
    simp [List.lookup_cons, b, h]

theorem lookup_preload_entry (store : Store) (entry : ConfigEntry) (key : Str) :
    (preload_entry store entry).lookup key =
      if produces_key entry key then some (entry_record entry) else store.lookup key := by
  unfold preload_entry produces_key
  by_cases hh : '-' ∈ entry.primary
  · simp only [hh, if_true, lookup_cons_eq, true_and]
    by_cases h2 : key = entry.primary
    · simp [h2]
    · by_cases h1 : key = composite_key entry
      · simp [h1]
      · simp [h1, h2]
  · simp only [hh, if_false, lookup_cons_eq, false_and, or_false]

theorem lookup_foldl_preload (entry_array : List ConfigEntry) (store : Store) (key : Str) :
    (entry_array.foldl preload_entry store).lookup key =
      ((entry_array.reverse.find? (fun e => decide (produces_key e key))).map entry_record).or
        (store.lookup key) := by
  induction entry_array generalizing store with
  | nil => simp
  | cons a l ih =>
    rw [List.foldl_cons, ih, lookup_preload_entry, List.reverse_cons, List.find?_append]
    cases hfind : l.reverse.find? (fun e => decide (produces_key e key)) with
    | some e => simp
    | none =>
      by_cases ha : produces_key a key
      · simp [ha]
      · simp [ha]

theorem lookup_preload (entry_array : List ConfigEntry) (key : Str) :
    (preload_xml_files entry_array).lookup key =
      (entry_array.reverse.find? (fun e => decide (produces_key e key))).map entry_record := by
  unfold preload_xml_files
  rw [lookup_foldl_preload]
  simp

theorem lookup_isSome_iff_mem_keys (store : Store) (key : Str) :
    (store.lookup key).isSome = true ↔ key ∈ store.map Prod.fst := by
  induction store with
  | nil => simp
  | cons a l ih =>
    obtain ⟨k, v⟩ := a
    rw [lookup_cons_eq, List.map_cons, List.mem_cons]
    by_cases h : key = k
    · subst h
      exact ⟨fun _ => Or.inl rfl, fun _ => by rw [if_pos rfl]; rfl⟩
    · simp only [h, if_false, false_or]
      exact ih

theorem lookup_preload_isSome (entry_array : List ConfigEntry) (key : Str) :
    ((preload_xml_files entry_array).lookup key).isSome = true ↔
      ∃ e ∈ entry_array, produces_key e key := by
  rw [lookup_preload]
  simp [List.find?_isSome]


/-- C11. Store key forms: the keys of the store built by `preload_xml_files` are exactly
the composite key `primary_secondary` (the secondary empty when absent) of every entry
and the primary alone of every entry whose primary contains a hyphen; these are also the
keys whose lookup gives a record.  An entry whose primary has no hyphen adds only its
composite key. -/
theorem store_key_forms (entry_array : List ConfigEntry) (key : Str) :
    (key ∈ (preload_xml_files entry_array).map Prod.fst ↔
      ∃ e ∈ entry_array,
        key = e.primary ++ '_' :: e.secondary.getD [] ∨ ('-' ∈ e.primary ∧ key = e.primary)) ∧
    ((∃ r, store_get (preload_xml_files entry_array) key = some (.record r)) ↔
      ∃ e ∈ entry_array,
        key = e.primary ++ '_' :: e.secondary.getD [] ∨ ('-' ∈ e.primary ∧ key = e.primary)) ∧
    (∀ (store : Store) (e : ConfigEntry), '-' ∉ e.primary →
      preload_entry store e = (e.primary ++ '_' :: e.secondary.getD [], ⟨e.dir, e.mappings⟩) :: store) := by
  refine ⟨?_, ?_, ?_⟩
  · rw [← lookup_isSome_iff_mem_keys]
    exact lookup_preload_isSome entry_array key
  · refine Iff.trans ?_ (lookup_preload_isSome entry_array key)
    constructor
    · rintro ⟨r, hr⟩
      rw [store_get_record hr]
      rfl
    · intro h
      obtain ⟨r, hr⟩ := Option.isSome_iff_exists.1 h
      exact ⟨r, store_get_of_lookup hr⟩
  · intro store e he
    simp [preload_entry, he, composite_key, entry_record]

/-- C12. Last-write-wins: the record the built store holds under a key is the record of
the last entry, in declaration order, that produces the key (as its composite key or as
its hyphenated primary alone), and the lookup of a key of the store gives exactly one
record.  In the worked configuration the second entry for `WA` replaces the first. -/
theorem last_write_wins (entry_array : List ConfigEntry) (key : Str) :
    (preload_xml_files entry_array).lookup key =
      (entry_array.reverse.find? (fun e =>
        decide (key = e.primary ++ '_' :: e.secondary.getD [] ∨
          ('-' ∈ e.primary ∧ key = e.primary)))).map
        (fun e => (⟨e.dir, e.mappings⟩ : MappingRecord)) ∧
    (key ∈ (preload_xml_files entry_array).map Prod.fst →
      ∃! r, store_get (preload_xml_files entry_array) key = some (.record r)) ∧
    (preload_xml_files example_config).lookup "WA_".toList =
      some ⟨"sounds/wa".toList, [("1".toList, "one.mp3".toList)]⟩ := by
  refine ⟨lookup_preload entry_array key, ?_, by decide⟩
  intro hmem
  obtain ⟨r, hr⟩ := Option.isSome_iff_exists.1 ((lookup_isSome_iff_mem_keys _ key).2 hmem)
  refine ⟨r, store_get_of_lookup hr, ?_⟩
  intro r' hr'
  have := store_get_record hr'
  rw [hr] at this
  exact (Option.some.inj this).symm

/-- The worked example of C12: in the store built from the worked configuration the key
`WA_` holds exactly one record. -/
theorem last_write_wins_witness :
    ∃! r, store_get (preload_xml_files example_config) "WA_".toList = some (.record r) :=
  (last_write_wins example_config "WA_".toList).2.1 (by decide)


/-! ## More on `parse_sequence` and on the dash key -/

theorem letter_runs_segments (L1 D1 : Str) (more : List (Str × Str))
    (h1 : IsRun is_upper L1) (hlen : more.length ≤ 3)
    (hmore : ∀ sg ∈ more, IsRun is_upper sg.1 ∧ IsRun is_digit sg.2) :
    letter_runs (segments_record L1 D1 more) = L1 :: more.map Prod.fst := by
  have n1 := run_not_isEmpty h1
  unfold letter_runs
  match more, hlen, hmore with
  | [], _, _ => simp [segments_record, List.filter, n1]
  | [a], _, hm =>
    have na := run_not_isEmpty (hm a (by simp)).1
    simp [segments_record, List.filter, n1, na]
  | [a, b], _, hm =>
    have na := run_not_isEmpty (hm a (by simp)).1
    have nb := run_not_isEmpty (hm b (by simp)).1
    simp [segments_record, List.filter, n1, na, nb]
  | [a, b, c], _, hm =>
    have na := run_not_isEmpty (hm a (by simp)).1
    have nb := run_not_isEmpty (hm b (by simp)).1
    have nc := run_not_isEmpty (hm c (by simp)).1
    simp [segments_record, List.filter, n1, na, nb, nc]
  | _ :: _ :: _ :: _ :: _, hl, _ => simp at hl

theorem letter_runs_letters (s : Str) (hs : IsRun is_upper s) :
    letter_runs ⟨s, [], [], [], []⟩ = [s] := by
  have := run_not_isEmpty hs
  simp [letter_runs, List.filter, this]

theorem digit_of_run {D : Str} (hD : IsRun is_digit D) : ∃ c ∈ D, is_digit c = true := by
  obtain ⟨hne, hall⟩ := hD
  cases D with
  | nil => exact absurd rfl hne
  | cons d D => exact ⟨d, by simp, hall d (by simp)⟩

/-- C16, as stated, fails: `WA` is accepted with one letter run and no number. -/
theorem numbers_per_run_counterexample :
    parse_sequence "WA".toList = some ⟨"WA".toList, [], [], [], []⟩ ∧
      (letter_runs ⟨"WA".toList, [], [], [], []⟩).length = 1 ∧
      (⟨"WA".toList, [], [], [], []⟩ : ParsedSequence).numbers.length = 0 := by
  decide

/-- C16, amended. For every string `parse_sequence` accepts, the numbers list holds at
most 4 tokens; when the string contains a digit it holds exactly one token per letter run
that was present (its length is the number of non-empty fields among primary, secondary,
tertiary and quaternary); when the string contains no digit it is empty and primary is
the only letter run. -/
theorem numbers_per_letter_run (s : Str) (parsed : ParsedSequence)
    (h : parse_sequence s = some parsed) :
    parsed.numbers.length ≤ 4 ∧
    ((∃ c ∈ s, is_digit c = true) → parsed.numbers.length = (letter_runs parsed).length) ∧
    ((∀ c ∈ s, is_digit c = false) →
      parsed.numbers = [] ∧ letter_runs parsed = [parsed.primary]) := by
  rcases parse_cases h with ⟨hL, rfl⟩ | ⟨L1, D1, more, h1, hd1, hlen, hmore, hs, rfl⟩
  · refine ⟨by simp, ?_, fun _ => ⟨rfl, letter_runs_letters s hL⟩⟩
    rintro ⟨c, hc, hd⟩
    have := is_upper_not_digit (hL.2 c hc)
    rw [hd] at this
    exact Bool.noConfusion this
  · rw [letter_runs_segments L1 D1 more h1 hlen hmore]
    refine ⟨by simp [segments_record]; omega, fun _ => by simp [segments_record], ?_⟩
    intro hnone
    obtain ⟨c, hc, hd⟩ := digit_of_run hd1
    have := hnone c (by rw [hs]; simp [hc])
    rw [hd] at this
    exact Bool.noConfusion this

/-- The worked example of C16: `WA1BC2` has two letter runs and two numbers. -/
theorem numbers_per_letter_run_witness :
    (["1".toList, "2".toList] : List Str).length =
      (letter_runs ⟨"WA".toList, "BC".toList, [], [], ["1".toList, "2".toList]⟩).length :=
  (numbers_per_letter_run "WA1BC2".toList
    ⟨"WA".toList, "BC".toList, [], [], ["1".toList, "2".toList]⟩ (by decide)).2.1
    ⟨'1', by decide, by decide⟩

/-- C18. Parse round trip: for every accepted string, primary, the first number,
secondary, the second number, tertiary, the third number, quaternary and the fourth
number, concatenated in this order (an absent number counting as the empty string), give
back the string. -/
theorem parse_round_trip (s : Str) (parsed : ParsedSequence)
    (h : parse_sequence s = some parsed) :
    parsed.primary ++ parsed.numbers.getD 0 [] ++ parsed.secondary ++ parsed.numbers.getD 1 [] ++
      parsed.tertiary ++ parsed.numbers.getD 2 [] ++ parsed.quaternary ++
      parsed.numbers.getD 3 [] = s := by
  rcases parse_cases h with ⟨-, rfl⟩ | ⟨L1, D1, more, -, -, hlen, -, hs, rfl⟩
  · simp
  · rw [hs]
    match more, hlen with
    | [], _ => simp [segments_record]
    | [a], _ => simp [segments_record]
    | [a, b], _ => simp [segments_record]
    | [a, b, c], _ => simp [segments_record]
    | _ :: _ :: _ :: _ :: _, hl => simp at hl

/-- The worked example of C18: the fields of `WA1BC2` give back `WA1BC2`. -/
theorem parse_round_trip_witness :
    "WA".toList ++ "1".toList ++ "BC".toList ++ "2".toList ++ [] ++ [] ++ [] ++ [] =
      "WA1BC2".toList :=
  parse_round_trip "WA1BC2".toList
    ⟨"WA".toList, "BC".toList, [], [], ["1".toList, "2".toList]⟩ (by decide)

theorem replace_from_no_digit (b : Bool) (s : Str) (hs : ∀ c ∈ s, is_digit c = false) :
    replace_digit_runs_from b s = s := by
  induction s generalizing b with
  | nil => rfl
  | cons c cs ih =>
    have hc : is_digit c = false := hs c (by simp)
    simp only [replace_digit_runs_from, hc, Bool.false_eq_true, if_false]
    rw [ih false (fun x hx => hs x (List.mem_cons_of_mem _ hx))]

theorem strip_trailing_hyphen_initial (y : Str) : strip_trailing_hyphen y <+: y := by
  unfold strip_trailing_hyphen
  split
  · exact List.dropLast_prefix y
  · exact List.prefix_refl y

theorem js_trim_initial (s : Str) : js_trim s <+: s.dropWhile is_js_space := by
  unfold js_trim
  have h := List.dropWhile_suffix is_js_space (l := (s.dropWhile is_js_space).reverse)
  have := List.reverse_prefix.2 h
  rwa [List.reverse_reverse] at this

theorem head_dropWhile_space (s : Str) :
    ∀ a ∈ (s.dropWhile is_js_space).head?, is_js_space a = false := by
  induction s with
  | nil => simp
  | cons c cs ih =>
    by_cases hc : is_js_space c = true
    · simpa [List.dropWhile_cons, hc] using ih
    · intro a ha
      simp only [List.dropWhile_cons, hc, if_false, Bool.false_eq_true] at ha
      simp at ha
      subst ha
      simpa using hc

theorem head_of_initial {x y : Str} (h : x <+: y) : ∀ a ∈ x.head?, a ∈ y.head? := by
  obtain ⟨t, rfl⟩ := h
  cases x with
  | nil => simp
  | cons c cs => simp

/-- C13, as stated, fails: `A--` holds no digit, its dash key is `A-`, and the dash key of
`A-` is `A`. -/
theorem dash_key_idempotent_counterexample :
    (∀ c ∈ "A--".toList, is_digit c = false) ∧
      dash_key "A--".toList = "A-".toList ∧
      dash_key (dash_key "A--".toList) = "A".toList ∧
      dash_key (dash_key "A--".toList) ≠ dash_key "A--".toList := by
  decide

/-- C13, amended. For every string without a digit whose dash key does not end with a
hyphen or with a whitespace character, the dash key of the dash key is the dash key. -/
theorem dash_key_idempotent (s : Str) (hs : ∀ c ∈ s, is_digit c = false)
    (hlast : ∀ c, (dash_key s).getLast? = some c → c ≠ '-' ∧ is_js_space c = false) :
    dash_key (dash_key s) = dash_key s := by
  have hpre : dash_key s <+: s.dropWhile is_js_space := by
    unfold dash_key replace_digit_runs
    rw [replace_from_no_digit false s hs]
    exact (strip_trailing_hyphen_initial _).trans (js_trim_initial s)
  have hsub : ∀ c ∈ dash_key s, is_digit c = false := by
    intro c hc
    exact hs c ((List.dropWhile_suffix is_js_space).subset (hpre.subset hc))
  have hhead : ∀ a ∈ (dash_key s).head?, is_js_space a = false := by
    intro a ha
    exact head_dropWhile_space s a (head_of_initial hpre a ha)
  generalize dash_key s = d at hlast hsub hhead
  unfold dash_key replace_digit_runs
  rw [replace_from_no_digit false d hsub,
    js_trim_id d hhead (fun a ha => (hlast a ha).2),
    strip_trailing_hyphen_id d (fun hc => (hlast '-' hc).1 rfl)]

/-- The worked example of C13: ` AB-CD- ` has the dash key `AB-CD`, a fixed point. -/
theorem dash_key_idempotent_witness :
    dash_key (dash_key " AB-CD- ".toList) = dash_key " AB-CD- ".toList :=
  dash_key_idempotent " AB-CD- ".toList (by decide)
    (by
      have e : (dash_key " AB-CD- ".toList).getLast? = some 'D' := by decide
      intro c hc
      rw [e] at hc
      cases hc
      decide)


/-! ## The `forEach` loop in dash mode -/

theorem store_get_of_run (store : Store) (primary rest : Str) (hp : IsRun is_upper primary) :
    store_get store (primary ++ rest) =
      (store.lookup (primary ++ rest)).map Property.record := by
  obtain ⟨hne, hup⟩ := hp
  cases primary with
  | nil => exact absurd rfl hne
  | cons c t =>
    cases hl : store.lookup (c :: t ++ rest) with
    | none => exact store_get_none_of_upper_head (hup c (by simp)) hl
    | some e => exact store_get_of_lookup hl

theorem push_resolved_record (join : Str → Str → Str) (e : MappingRecord)
    (results : List Str) (num : Str) :
    push_resolved join (.record e) results num =
      some (results ++ resolved_paths join (normalize_dir e.dir) e.mappings [num]) := by
  simp only [push_resolved, find_mapping_eq, resolved_paths, List.filterMap_cons,
    List.filterMap_nil]
  cases e.mappings.find? (fun m => decide (m.1 = num)) <;> simp

theorem entry_paths_nil (join : Str → Str → Str) (store : Store) (key : Str) :
    entry_paths join store key [] = [] := by
  unfold entry_paths
  cases store.lookup key <;> rfl

theorem lookup_then_push (join : Str → Str → Str) (store : Store) (primary rest : Str)
    (hp : IsRun is_upper primary) (results : List Str) (num : Str) :
    (match store_get store (primary ++ rest) with
      | none => some results
      | some target => push_resolved join target results num) =
      some (results ++ entry_paths join store (primary ++ rest) [num]) := by
  rw [store_get_of_run store primary rest hp]
  unfold entry_paths
  cases store.lookup (primary ++ rest) with
  | none => simp
  | some e => simp [push_resolved_record]

/-- One callback of `forEach` in dash mode: position 1 goes to the tertiary key,
position 2 to the quaternary key, every other position to the base entry. -/
theorem resolve_number_dash (join : Str → Str → Str) (store : Store)
    (parsed : ParsedSequence) (base : MappingRecord) (results : List Str) (index : Nat)
    (num : Str) (hp : IsRun is_upper parsed.primary) :
    resolve_number join store parsed (.record base) true results index num =
      some (results ++
        (if index = 1 then
          entry_paths join store (parsed.primary ++ '_' :: parsed.tertiary) [num]
        else if index = 2 then
          entry_paths join store (parsed.primary ++ '_' :: parsed.quaternary) [num]
        else resolved_paths join (normalize_dir base.dir) base.mappings [num])) := by
  unfold resolve_number
  by_cases h1 : index = 1
  · simp only [h1, and_self, if_true]
    exact lookup_then_push join store _ _ hp results num
  · by_cases h2 : index = 2
    · simp only [h2, and_true, if_true, OfNat.ofNat_ne_one, if_false]
      exact lookup_then_push join store _ _ hp results num
    · simp only [h1, h2, false_and, if_false]
      exact push_resolved_record join base results num

theorem resolved_paths_nil (join : Str → Str → Str) (dir : Str) (mappings : List (Str × Str)) :
    resolved_paths join dir mappings [] = [] := rfl

/-- The `forEach` loop in dash mode on the numbers left after the shift. -/
theorem forEach_dash (join : Str → Str → Str) (store : Store) (parsed : ParsedSequence)
    (base : MappingRecord) (rest : List Str) (results : List Str)
    (hp : IsRun is_upper parsed.primary) (hlen : rest.length ≤ 3) :
    rest.enum.foldlM
      (fun acc x => resolve_number join store parsed (.record base) true acc x.1 x.2)
      results =
    some (results ++
      (resolved_paths join (normalize_dir base.dir) base.mappings (rest.take 1) ++
        (entry_paths join store (parsed.primary ++ '_' :: parsed.tertiary)
            ((rest.drop 1).take 1) ++
          entry_paths join store (parsed.primary ++ '_' :: parsed.quaternary)
            (rest.drop 2)))) := by
  match rest, hlen with
  | [], _ => simp [entry_paths_nil, resolved_paths_nil]
  | [a], _ =>
    simp [List.enum, List.enumFrom, resolve_number_dash _ _ _ _ _ _ _ hp, entry_paths_nil]
  | [a, b], _ =>
    simp [List.enum, List.enumFrom, resolve_number_dash _ _ _ _ _ _ _ hp, entry_paths_nil]
  | [a, b, c], _ =>
    simp [List.enum, List.enumFrom, resolve_number_dash _ _ _ _ _ _ _ hp]
  | _ :: _ :: _ :: _ :: _, hl => simp at hl

theorem numbers_of_parsed {s : Str} {parsed : ParsedSequence}
    (h : parse_sequence s = some parsed) : parsed.numbers.length ≤ 4 := by
  rcases parse_cases h with ⟨-, rfl⟩ | ⟨L1, D1, more, -, -, hlen, -, -, rfl⟩
  · simp
  · simp [segments_record]; omega

theorem first_digit_run_of_numbers {s : Str} {parsed : ParsedSequence} {D1 : Str}
    {rest : List Str} (h : parse_sequence s = some parsed)
    (hnum : parsed.numbers = D1 :: rest) : first_digit_run s = some D1 := by
  rcases parse_cases h with ⟨-, rfl⟩ | ⟨L1, D, more, h1, hd, -, hmore, hs, rfl⟩
  · simp at hnum
  · simp only [segments_record, List.cons.injEq] at hnum
    obtain ⟨rfl, -⟩ := hnum
    rw [hs]
    apply first_digit_run_segments L1 D _ h1 hd
    cases more with
    | nil => simp
    | cons a more =>
      have := head_upper_not_digit (t := a.2 ++ more.flatMap (fun sg => sg.1 ++ sg.2))
        (hmore a (by simp)).1
      simpa using this

/-- C14. Positional overrides in dash mode: for an accepted sequence with the numbers
`D1, D2, ...` whose dash key holds `{dd, dm}` and whose base key holds a record, the
sequence adds, in this order, the dash-stage path for `D1` (directory not normalised),
then `D2` resolved in the base entry, `D3` in the entry under `primary_tertiary` and `D4`
in the entry under `primary_quaternary`; each resolution adds the path of the first
matching pair when the entry exists and has the key, and nothing otherwise, and the later
positions are still resolved. -/
theorem dash_positional_overrides (join : Str → Str → Str) (store : Store) (s : Str)
    (parsed : ParsedSequence) (D1 : Str) (rest : List Str) (dd : Str)
    (dm : List (Str × Str)) (base : MappingRecord) (results : List Str)
    (hparse : parse_sequence s = some parsed) (hnum : parsed.numbers = D1 :: rest)
    (hdash : store.lookup (dash_key s) = some ⟨dd, dm⟩)
    (hbase : store.lookup (parsed.primary ++ '_' :: parsed.secondary) = some base) :
    process_sequence join store results s =
      some (results ++
        (resolved_paths join dd dm [D1] ++
          (resolved_paths join (normalize_dir base.dir) base.mappings (rest.take 1) ++
            (entry_paths join store (parsed.primary ++ '_' :: parsed.tertiary)
                ((rest.drop 1).take 1) ++
              entry_paths join store (parsed.primary ++ '_' :: parsed.quaternary)
                (rest.drop 2))))) := by
  have hrun := first_digit_run_of_numbers hparse hnum
  have hlen : rest.length ≤ 3 := by
    have := numbers_of_parsed hparse
    rw [hnum] at this
    simpa using this
  simp only [process_sequence, dash_stage_on results hdash hrun, hparse,
    store_get_of_lookup hbase, if_true, hnum, List.tail_cons]
  rw [forEach_dash join store parsed base rest _ (primary_of_parsed hparse) hlen]
  simp

/-- The worked example of C14: `WA1BC2DE3FG4` with the dash entry `WA-BC-DE-FG`.  The
number `2` is resolved in the base entry `WA_BC`, the number `3` in `WA_DE` and the number
`4` in `WA_FG`, although the base entry has the keys `3` and `4` too. -/
theorem dash_positional_overrides_witness :
    process_sequence posix_join example_override_store [] "WA1BC2DE3FG4".toList =
      some ["sounds/dash/dashone.mp3".toList, "bc/two.mp3".toList, "de/three.mp3".toList,
        "fg/four.mp3".toList] :=
  (dash_positional_overrides posix_join example_override_store "WA1BC2DE3FG4".toList
    ⟨"WA".toList, "BC".toList, "DE".toList, "FG".toList,
      ["1".toList, "2".toList, "3".toList, "4".toList]⟩
    "1".toList ["2".toList, "3".toList, "4".toList]
    "sounds/dash".toList [("1".toList, "dashone.mp3".toList)]
    ⟨"domestic\\bc".toList,
      [("2".toList, "two.mp3".toList), ("3".toList, "base3.mp3".toList),
       ("4".toList, "base4.mp3".toList)]⟩ []
    (by decide) (by decide) (by decide) (by decide)).trans (by decide)

/-! ## What one sequence adds, in every mode -/

theorem resolved_paths_length (join : Str → Str → Str) (dir : Str)
    (mappings : List (Str × Str)) (numbers : List Str) :
    (resolved_paths join dir mappings numbers).length ≤ numbers.length :=
  List.length_filterMap_le _ _

theorem entry_paths_length (join : Str → Str → Str) (store : Store) (key : Str)
    (numbers : List Str) : (entry_paths join store key numbers).length ≤ numbers.length := by
  unfold entry_paths
  cases store.lookup key with
  | none => simp
  | some e => exact resolved_paths_length join _ _ numbers

/-- The dash stage, when it does not raise, adds at most one path; it adds none when dash
mode is off, and dash mode is on only for a sequence with a digit whose dash key holds a
record. -/
theorem dash_stage_some {join : Str → Str → Str} {store : Store} {results : List Str}
    {s : Str} {b : Bool} {r : List Str} (h : dash_stage join store results s = some (b, r)) :
    ∃ d, r = results ++ d ∧ d.length ≤ 1 ∧ (b = false → d = []) ∧
      (b = true → ∃ e num, store.lookup (dash_key s) = some e ∧ first_digit_run s = some num ∧
        d = resolved_paths join e.dir e.mappings [num]) := by
  cases hd : find_dash_entry store s with
  | none =>
    rw [dash_stage_off results hd] at h
    simp only [Option.some.injEq, Prod.mk.injEq] at h
    obtain ⟨rfl, rfl⟩ := h
    exact ⟨[], by simp, by simp, fun _ => rfl, fun hb => by simp at hb⟩
  | some p =>
    cases hn : first_digit_run s with
    | none => simp [dash_stage, hd, hn] at h
    | some num =>
      cases p with
      | inherited => simp [dash_stage, hd, hn] at h
      | record e =>
        have hl : store.lookup (dash_key s) = some e := store_get_record hd
        rw [dash_stage_on results hl hn] at h
        simp only [Option.some.injEq, Prod.mk.injEq] at h
        obtain ⟨rfl, rfl⟩ := h
        exact ⟨_, rfl, resolved_paths_length join _ _ [num], fun hb => by simp at hb,
          fun _ => ⟨e, num, hl, rfl, rfl⟩⟩

/-- After a dash stage that did not raise, the rest of the loop body does not raise
either: it adds at most one path per number left to resolve, and nothing for a sequence
that fails the grammar. -/
theorem process_of_dash_stage {join : Str → Str → Str} {store : Store} {results : List Str}
    {s : Str} {b : Bool} {r : List Str} (h : dash_stage join store results s = some (b, r)) :
    ∃ extra, process_sequence join store results s = some (r ++ extra) ∧
      extra.length ≤
        (match parse_sequence s with
          | none => 0
          | some parsed => (if b = true then parsed.numbers.tail else parsed.numbers).length) := by
  unfold process_sequence
  rw [h]
  simp only
  cases hp : parse_sequence s with
  | none => exact ⟨[], by simp, by simp⟩
  | some parsed =>
    have hprim := primary_of_parsed hp
    simp only
    rw [store_get_of_run store parsed.primary _ hprim]
    cases store.lookup (parsed.primary ++ '_' :: parsed.secondary) with
    | none => exact ⟨[], by simp, by simp⟩
    | some e =>
      simp only [Option.map_some']
      cases b with
      | false =>
        simp only [Bool.false_eq_true, if_false]
        rw [forEach_base_paths]
        exact ⟨_, rfl, resolved_paths_length join _ _ _⟩
      | true =>
        simp only [if_true]
        have hlen : parsed.numbers.tail.length ≤ 3 := by
          have := numbers_of_parsed hp
          simp only [List.length_tail]
          omega
        rw [forEach_dash join store parsed e parsed.numbers.tail r hprim hlen]
        refine ⟨_, rfl, ?_⟩
        have l1 := resolved_paths_length join (normalize_dir e.dir) e.mappings
          (parsed.numbers.tail.take 1)
        have l2 := entry_paths_length join store (parsed.primary ++ '_' :: parsed.tertiary)
          ((parsed.numbers.tail.drop 1).take 1)
        have l3 := entry_paths_length join store (parsed.primary ++ '_' :: parsed.quaternary)
          (parsed.numbers.tail.drop 2)
        simp only [List.length_append, List.length_take, List.length_drop] at l1 l2 l3 ⊢
        omega

/-- C15. The dash-stage path is never normalised: for a sequence in dash mode whose dash
entry `{dd, dm}` has a pair for the first digit run with the value `v`, the first path
the sequence adds is `join dd v`, with `dd` as it is stored.  In the worked store, whose
two entries share the directory `domestic\\sounds`, the dash-stage path keeps the literal
and the path of the base entry has lost it. -/
theorem dash_path_not_normalized (join : Str → Str → Str) (store : Store) (s : Str)
    (num dd v : Str) (dm : List (Str × Str)) (results : List Str)
    (hdash : store.lookup (dash_key s) = some ⟨dd, dm⟩)
    (hrun : first_digit_run s = some num)
    (hv : (dm.find? (fun m => decide (m.1 = num))).map Prod.snd = some v) :
    (∃ rest, process_sequence join store results s = some (results ++ join dd v :: rest)) ∧
    (∃ rest, get_final_audio_paths join store [s] = some (join dd v :: rest)) ∧
    get_final_audio_paths posix_join example_domestic_store ["WA1BC2".toList] =
      some ["domestic\\sounds/dashone.mp3".toList, "sounds/two.mp3".toList] := by
  have hpath : resolved_paths join dd dm [num] = [join dd v] := by
    simp only [resolved_paths, List.filterMap_cons, List.filterMap_nil]
    cases hf : dm.find? (fun m => decide (m.1 = num)) with
    | none => rw [hf] at hv; simp at hv
    | some m =>
      rw [hf] at hv
      simp only [Option.map_some', Option.some.injEq] at hv
      simp [hv]
  have key : ∀ results : List Str,
      ∃ rest, process_sequence join store results s = some (results ++ join dd v :: rest) := by
    intro results
    have hd := @dash_stage_on join store s num ⟨dd, dm⟩ results hdash hrun
    obtain ⟨extra, hproc, -⟩ := process_of_dash_stage hd
    refine ⟨extra, ?_⟩
    rw [hproc]
    simp only [hpath, List.append_assoc, List.singleton_append]
  refine ⟨key results, ?_, by decide⟩
  obtain ⟨rest, hrest⟩ := key []
  exact ⟨rest, by rw [get_final_audio_paths_singleton, hrest]; rfl⟩

/-- The worked example of C15: `WA1BC2` in the worked store starts with the dash-stage
path, the literal `domestic\\` still in it. -/
theorem dash_path_not_normalized_witness :
    ∃ rest, get_final_audio_paths posix_join example_domestic_store ["WA1BC2".toList] =
      some (posix_join "domestic\\sounds".toList "dashone.mp3".toList :: rest) :=
  (dash_path_not_normalized posix_join example_domestic_store "WA1BC2".toList "1".toList
    "domestic\\sounds".toList "dashone.mp3".toList [("1".toList, "dashone.mp3".toList)] []
    (by decide) (by decide) (by decide)).2.1


/-! ## Resolution against a store built by the preload -/

theorem underscore_not_upper : is_upper '_' = false := by decide

theorem preload_key_chars (entry_array : List ConfigEntry) (key : Str) (e : MappingRecord)
    (h : (preload_xml_files entry_array).lookup key = some e) :
    ∃ entry ∈ entry_array,
      key = composite_key entry ∨ ('-' ∈ entry.primary ∧ key = entry.primary) :=
  (lookup_preload_isSome entry_array key).1 (by simp [h])

/-- A key made of uppercase letters and hyphens that the built store holds is the primary
of an entry, and that primary contains a hyphen. -/
theorem preload_lookup_of_runs (entry_array : List ConfigEntry) (key : Str)
    (e : MappingRecord) (hkey : ∀ c ∈ key, is_upper c = true ∨ c = '-')
    (h : (preload_xml_files entry_array).lookup key = some e) :
    ∃ entry ∈ entry_array, '-' ∈ entry.primary ∧ entry.primary = key := by
  obtain ⟨entry, hmem, hk | ⟨hh, hk⟩⟩ := preload_key_chars entry_array key e h
  · exfalso
    have hu : '_' ∈ key := by rw [hk]; simp [composite_key]
    rcases hkey '_' hu with h1 | h1
    · rw [underscore_not_upper] at h1; exact Bool.noConfusion h1
    · revert h1; decide
  · exact ⟨entry, hmem, hh, hk.symm⟩

theorem preload_lookup_letters (entry_array : List ConfigEntry) (L : Str)
    (hL : ∀ c ∈ L, is_upper c = true) : (preload_xml_files entry_array).lookup L = none := by
  cases h : (preload_xml_files entry_array).lookup L with
  | none => rfl
  | some e =>
    exfalso
    obtain ⟨entry, -, hh, hk⟩ :=
      preload_lookup_of_runs entry_array L e (fun c hc => Or.inl (hL c hc)) h
    rw [hk] at hh
    have := hL '-' hh
    rw [hyphen_not_upper] at this
    exact Bool.noConfusion this

/-- The dash key of an accepted sequence is its letter runs joined by hyphens. -/
theorem dash_key_eq_runs {s : Str} {parsed : ParsedSequence}
    (h : parse_sequence s = some parsed) :
    letter_runs parsed ≠ [] ∧ (∀ r ∈ letter_runs parsed, IsRun is_upper r) ∧
      dash_key s = ['-'].intercalate (letter_runs parsed) := by
  rcases parse_cases h with ⟨hL, rfl⟩ | ⟨L1, D1, more, h1, hd1, hlen, hmore, hs, rfl⟩
  · rw [letter_runs_letters s hL, dash_key_letters s hL]
    exact ⟨by simp, by simpa using hL, by simp [List.intercalate]⟩
  · rw [letter_runs_segments L1 D1 more h1 hlen hmore, hs,
      dash_key_segments L1 D1 more h1 hd1 hmore]
    refine ⟨by simp, ?_, rfl⟩
    intro r hr
    rcases List.mem_cons.1 hr with rfl | hr
    · exact h1
    · obtain ⟨sg, hsg, rfl⟩ := List.mem_map.1 hr
      exact (hmore sg hsg).1

theorem dash_key_chars_of_parsed {s : Str} {parsed : ParsedSequence}
    (h : parse_sequence s = some parsed) : ∀ c ∈ dash_key s, is_upper c = true ∨ c = '-' := by
  obtain ⟨hne, hruns, hkey⟩ := dash_key_eq_runs h
  rw [hkey]
  exact (intercalate_runs _ hne hruns).2.1

theorem find_dash_entry_of_parsed (store : Store) {s : Str} {parsed : ParsedSequence}
    (h : parse_sequence s = some parsed) :
    find_dash_entry store s = (store.lookup (dash_key s)).map Property.record := by
  obtain ⟨c, t, hk, hc⟩ := dash_key_head_of_parsed h
  unfold find_dash_entry
  rw [hk]
  cases hl : store.lookup (c :: t) with
  | none => exact store_get_none_of_upper_head hc hl
  | some e => exact store_get_of_lookup hl

theorem digit_of_first_digit_run {s r : Str} (h : first_digit_run s = some r) :
    ∃ c ∈ s, is_digit c = true := by
  unfold first_digit_run at h
  cases hd : s.dropWhile (fun c => !is_digit c) with
  | nil => rw [hd] at h; simp at h
  | cons c cs =>
    refine ⟨c, ?_, ?_⟩
    · have : c ∈ s.dropWhile (fun c => !is_digit c) := by rw [hd]; simp
      exact (List.dropWhile_suffix _).subset this
    · have hh := List.head_dropWhile_not (fun c => !is_digit c) s (by rw [hd]; simp)
      simp only [hd, List.head_cons] at hh
      simpa using hh

/-- With a store built by the preload, the dash stage of an accepted sequence does not
raise. -/
theorem dash_stage_preload (join : Str → Str → Str) (entry_array : List ConfigEntry)
    (results : List Str) {s : Str} {parsed : ParsedSequence}
    (h : parse_sequence s = some parsed) :
    ∃ b r, dash_stage join (preload_xml_files entry_array) results s = some (b, r) := by
  rcases parse_cases h with ⟨hL, -⟩ | ⟨L1, D1, more, h1, hd1, -, hmore, hs, hrec⟩
  · have hl : (preload_xml_files entry_array).lookup (dash_key s) = none := by
      rw [dash_key_letters s hL]
      exact preload_lookup_letters entry_array s hL.2
    exact ⟨false, results, dash_stage_off results (find_dash_entry_none_of_parsed h hl)⟩
  · have hrun : first_digit_run s = some D1 :=
      first_digit_run_of_numbers h (by rw [hrec]; rfl)
    cases hl : (preload_xml_files entry_array).lookup (dash_key s) with
    | none =>
      exact ⟨false, results, dash_stage_off results (find_dash_entry_none_of_parsed h hl)⟩
    | some e => exact ⟨true, _, dash_stage_on results hl hrun⟩

theorem process_sequence_preload (join : Str → Str → Str) (entry_array : List ConfigEntry)
    (results : List Str) {s : Str} (h : (parse_sequence s).isSome = true) :
    ∃ out, process_sequence join (preload_xml_files entry_array) results s = some out := by
  obtain ⟨parsed, hp⟩ := Option.isSome_iff_exists.1 h
  obtain ⟨b, r, hd⟩ := dash_stage_preload join entry_array results hp
  obtain ⟨extra, hproc, -⟩ := process_of_dash_stage hd
  exact ⟨_, hproc⟩

theorem coerce_to_array_of_ne_nil {α : Type} (elements : List α) (h : elements ≠ []) :
    coerce_to_array elements = elements.map some := by
  match elements, h with
  | [], h => exact absurd rfl h
  | [x], _ => rfl
  | x :: y :: rest, _ => rfl

theorem array_find_map_some (mappings : List (Str × Str)) (num : Str) :
    array_find (mappings.map some) num = some (find_mapping mappings num) := by
  induction mappings with
  | nil => rfl
  | cons m rest ih =>
    by_cases h : (m.1 == num) = true
    · simp [array_find, find_mapping, h]
    · simp only [Bool.not_eq_true] at h
      simp only [List.map_cons, array_find, h, Bool.false_eq_true, if_false, ih, find_mapping,
        List.find?_cons]

/-- On the array stored for a table with no `Entry`, every `find` raises. -/
theorem array_find_no_entry (num : Str) :
    array_find (coerce_to_array ([] : List (Str × Str))) num = none := rfl

/-- Every record of the built store is the record of an entry of the configuration. -/
theorem record_of_preload (entry_array : List ConfigEntry) (key : Str) (r : MappingRecord)
    (h : (preload_xml_files entry_array).lookup key = some r) :
    ∃ e ∈ entry_array, r = entry_record e := by
  rw [lookup_preload] at h
  cases hf : entry_array.reverse.find? (fun e => decide (produces_key e key)) with
  | none => rw [hf] at h; simp at h
  | some e =>
    rw [hf] at h
    simp only [Option.map_some', Option.some.injEq] at h
    have hmem : e ∈ entry_array.reverse := List.mem_of_find?_eq_some hf
    exact ⟨e, List.mem_reverse.1 hmem, h.symm⟩

/-- C17. Safety under the intended preconditions: with a store built by
`preload_xml_files` from a configuration that has at least one `Entry` (so the preload
itself completes) and whose mapping tables are well formed (each table has at least one
`Entry`, so the array stored holds no `undefined`), and with sequences that are all
accepted by the grammar, `get_final_audio_paths` does not raise; whenever the dash probe
finds an entry for such a sequence, the sequence has a digit run, so the first numeric run
read at the dash stage is defined; on the array stored for any record of the store every
`find` is defined and gives what the lookup in the table gives; and the array of entries
the preload loops over holds no `undefined`. -/
theorem preload_resolution_total (join : Str → Str → Str) (entry_array : List ConfigEntry)
    (sequences : List Str) (hcfg : entry_array ≠ [])
    (hwf : ∀ e ∈ entry_array, e.mappings ≠ [])
    (hacc : ∀ s ∈ sequences, (parse_sequence s).isSome = true) :
    (∃ out, get_final_audio_paths join (preload_xml_files entry_array) sequences = some out) ∧
    (∀ s ∈ sequences, ∀ p, find_dash_entry (preload_xml_files entry_array) s = some p →
      (first_digit_run s).isSome = true) ∧
    (∀ key r, (preload_xml_files entry_array).lookup key = some r →
      ∃ e ∈ entry_array, r = ⟨e.dir, e.mappings⟩ ∧
        ∀ num, array_find (coerce_to_array e.mappings) num =
          some (find_mapping r.mappings num)) ∧
    coerce_to_array entry_array = entry_array.map some := by
  refine ⟨?_, ?_, ?_, coerce_to_array_of_ne_nil entry_array hcfg⟩
  · induction sequences with
    | nil => exact ⟨[], rfl⟩
    | cons s xs ih =>
      obtain ⟨a, ha⟩ := process_sequence_preload join entry_array [] (hacc s (by simp))
      obtain ⟨b, hb⟩ := ih (fun x hx => hacc x (List.mem_cons_of_mem _ hx))
      exact ⟨a ++ b, by rw [get_final_audio_paths_cons, ha, hb]; rfl⟩
  · intro s hs p hp
    obtain ⟨parsed, hparse⟩ := Option.isSome_iff_exists.1 (hacc s hs)
    rcases parse_cases hparse with ⟨hL, -⟩ | ⟨L1, D1, more, -, -, -, -, -, hrec⟩
    · exfalso
      have hl : (preload_xml_files entry_array).lookup (dash_key s) = none := by
        rw [dash_key_letters s hL]
        exact preload_lookup_letters entry_array s hL.2
      rw [find_dash_entry_none_of_parsed hparse hl] at hp
      exact Option.noConfusion hp
    · rw [first_digit_run_of_numbers hparse (by rw [hrec]; rfl)]
      rfl
  · intro key r hr
    obtain ⟨e, hmem, rfl⟩ := record_of_preload entry_array key r hr
    refine ⟨e, hmem, rfl, ?_⟩
    intro num
    rw [coerce_to_array_of_ne_nil e.mappings (hwf e hmem)]
    exact array_find_map_some e.mappings num

/-- The worked example of C17: the worked configuration, whose tables have one `Entry`
each, and a batch of accepted sequences. -/
theorem preload_resolution_total_witness :
    ∃ out, get_final_audio_paths posix_join (preload_xml_files example_config)
      ["WA1".toList, "WA".toList, "WA1BC1".toList, "ZZ9".toList] = some out :=
  (preload_resolution_total posix_join example_config
    ["WA1".toList, "WA".toList, "WA1BC1".toList, "ZZ9".toList] (by decide) (by decide)
    (by decide)).1


/-! ## Dash mode needs a hyphenated primary -/

theorem secondary_empty_cases {s : Str} {parsed : ParsedSequence}
    (h : parse_sequence s = some parsed) (hsec : parsed.secondary = []) :
    letter_runs parsed = [parsed.primary] := by
  rcases parse_cases h with ⟨hL, rfl⟩ | ⟨L1, D1, more, h1, hd1, hlen, hmore, hs, rfl⟩
  · exact letter_runs_letters s hL
  · rw [letter_runs_segments L1 D1 more h1 hlen hmore]
    cases more with
    | nil => rfl
    | cons a more =>
      exfalso
      simp only [segments_record, List.map_cons, List.getD_cons_zero] at hsec
      exact (hmore a (by simp)).1.1 hsec

/-- With a store built by the preload, a sequence with one letter run is resolved by the
base lookup alone. -/
theorem single_run_process (join : Str → Str → Str) (entry_array : List ConfigEntry)
    (results : List Str) {s : Str} {parsed : ParsedSequence}
    (h : parse_sequence s = some parsed) (hsec : parsed.secondary = []) :
    find_dash_entry (preload_xml_files entry_array) s = none ∧
      process_sequence join (preload_xml_files entry_array) results s =
        some (results ++ entry_paths join (preload_xml_files entry_array)
          (parsed.primary ++ '_' :: parsed.secondary) parsed.numbers) := by
  obtain ⟨-, -, hkey⟩ := dash_key_eq_runs h
  rw [secondary_empty_cases h hsec] at hkey
  have hkey' : dash_key s = parsed.primary := by
    rw [hkey]; simp [List.intercalate]
  have hl : (preload_xml_files entry_array).lookup (dash_key s) = none := by
    rw [hkey']
    exact preload_lookup_letters entry_array _ (primary_of_parsed h).2
  have hnone := find_dash_entry_none_of_parsed h hl
  refine ⟨hnone, ?_⟩
  simp only [process_sequence, dash_stage_off results hnone, h, Bool.false_eq_true, if_false]
  rw [store_get_of_run _ parsed.primary _ (primary_of_parsed h)]
  unfold entry_paths
  cases (preload_xml_files entry_array).lookup (parsed.primary ++ '_' :: parsed.secondary) with
  | none => simp
  | some e =>
    simp only [Option.map_some']
    exact forEach_base_paths join _ parsed e parsed.numbers results

/-- C19. With a store built by `preload_xml_files`, dash mode cannot be triggered by a
single-segment code: for an accepted sequence with one letter run the dash probe finds no
entry, and the sequence adds what the base lookup gives for its numbers; for any accepted
sequence, the dash probe finds an entry only if the primary of some configuration entry
contains a hyphen and equals the letter runs of the sequence joined by hyphens. -/
theorem single_segment_never_dash (join : Str → Str → Str) (entry_array : List ConfigEntry)
    (s : Str) (parsed : ParsedSequence) (results : List Str)
    (hparse : parse_sequence s = some parsed) :
    (parsed.secondary = [] →
      find_dash_entry (preload_xml_files entry_array) s = none ∧
      process_sequence join (preload_xml_files entry_array) results s =
        some (results ++ entry_paths join (preload_xml_files entry_array)
          (parsed.primary ++ '_' :: parsed.secondary) parsed.numbers)) ∧
    (∀ p, find_dash_entry (preload_xml_files entry_array) s = some p →
      ∃ e ∈ entry_array, '-' ∈ e.primary ∧
        e.primary = ['-'].intercalate (letter_runs parsed)) := by
  refine ⟨single_run_process join entry_array results hparse, ?_⟩
  intro p hp
  rw [find_dash_entry_of_parsed _ hparse] at hp
  cases hl : (preload_xml_files entry_array).lookup (dash_key s) with
  | none => rw [hl] at hp; simp at hp
  | some r =>
    obtain ⟨e, hmem, hh, hk⟩ :=
      preload_lookup_of_runs entry_array _ r (dash_key_chars_of_parsed hparse) hl
    exact ⟨e, hmem, hh, by rw [hk, (dash_key_eq_runs hparse).2.2]⟩

/-- The worked example of C19: with the worked configuration, which has the primaries
`WA` and `WA-BC`, the dash probe of `WA1` finds nothing and `WA1` resolves in `WA_`. -/
theorem single_segment_never_dash_witness :
    find_dash_entry (preload_xml_files example_config) "WA1".toList = none ∧
      process_sequence posix_join (preload_xml_files example_config) [] "WA1".toList =
        some ["sounds/wa/one.mp3".toList] :=
  ⟨((single_segment_never_dash posix_join example_config "WA1".toList
      ⟨"WA".toList, [], [], [], ["1".toList]⟩ [] (by decide)).1 rfl).1,
   ((single_segment_never_dash posix_join example_config "WA1".toList
      ⟨"WA".toList, [], [], [], ["1".toList]⟩ [] (by decide)).1 rfl).2.trans (by decide)⟩


/-! ## The output bound -/

theorem count_from_letters (b : Bool) (L t : Str) (hL : ∀ c ∈ L, is_upper c = true)
    (hne : L ≠ []) : count_digit_runs_from b (L ++ t) = count_digit_runs_from false t := by
  induction L generalizing b with
  | nil => exact absurd rfl hne
  | cons a L ih =>
    have ha : is_digit a = false := is_upper_not_digit (hL a (by simp))
    simp only [List.cons_append, count_digit_runs_from, ha, Bool.false_eq_true, if_false]
    cases L with
    | nil => rfl
    | cons d L => exact ih false (fun c hc => hL c (List.mem_cons_of_mem _ hc)) (by simp)

theorem count_from_digits_true (D t : Str) (hD : ∀ c ∈ D, is_digit c = true) :
    count_digit_runs_from true (D ++ t) = count_digit_runs_from true t := by
  induction D with
  | nil => rfl
  | cons d D ih =>
    have hd : is_digit d = true := hD d (by simp)
    simp only [List.cons_append, count_digit_runs_from, hd, if_true]
    exact ih (fun c hc => hD c (List.mem_cons_of_mem _ hc))

theorem count_from_digits (D t : Str) (hD : IsRun is_digit D) :
    count_digit_runs_from false (D ++ t) = 1 + count_digit_runs_from true t := by
  obtain ⟨hne, hall⟩ := hD
  cases D with
  | nil => exact absurd rfl hne
  | cons d D =>
    have hd : is_digit d = true := hall d (by simp)
    have hrest := count_from_digits_true D t (fun c hc => hall c (List.mem_cons_of_mem _ hc))
    simp only [List.cons_append, count_digit_runs_from, hd, if_true, Bool.false_eq_true,
      if_false]
    exact congrArg _ hrest

theorem count_from_segments (b : Bool) (segs : List (Str × Str))
    (hsegs : ∀ sg ∈ segs, IsRun is_upper sg.1 ∧ IsRun is_digit sg.2) :
    count_digit_runs_from b (segs.flatMap (fun sg => sg.1 ++ sg.2)) = segs.length := by
  induction segs generalizing b with
  | nil => rfl
  | cons a rest ih =>
    have ha := hsegs a (by simp)
    simp only [List.flatMap_cons, List.append_assoc, List.length_cons]
    rw [count_from_letters b a.1 _ ha.1.2 ha.1.1, count_from_digits a.2 _ ha.2,
      ih true (fun sg hsg => hsegs sg (List.mem_cons_of_mem _ hsg))]
    omega

/-- The numbers of an accepted sequence are as many as its maximal digit runs. -/
theorem count_digit_runs_of_parsed {s : Str} {parsed : ParsedSequence}
    (h : parse_sequence s = some parsed) : count_digit_runs s = parsed.numbers.length := by
  rcases parse_cases h with ⟨hL, rfl⟩ | ⟨L1, D1, more, h1, hd1, -, hmore, hs, rfl⟩
  · have := count_from_letters false s [] hL.2 hL.1
    simpa [count_digit_runs, count_digit_runs_from] using this
  · have hall : ∀ sg ∈ (L1, D1) :: more, IsRun is_upper sg.1 ∧ IsRun is_digit sg.2 := by
      intro sg hsg
      rcases List.mem_cons.1 hsg with rfl | hsg
      · exact ⟨h1, hd1⟩
      · exact hmore sg hsg
    have := count_from_segments false ((L1, D1) :: more) hall
    simp only [List.flatMap_cons, List.append_assoc, List.length_cons] at this
    rw [hs]
    simpa [count_digit_runs, segments_record] using this

theorem count_pos_of_digit (s : Str) (h : ∃ c ∈ s, is_digit c = true) :
    1 ≤ count_digit_runs_from false s := by
  induction s with
  | nil => simp at h
  | cons a t ih =>
    by_cases ha : is_digit a = true
    · simp only [count_digit_runs_from, ha, if_true, Bool.false_eq_true, if_false]
      omega
    · simp only [count_digit_runs_from, ha, if_false, Bool.false_eq_true]
      apply ih
      obtain ⟨c, hc, hd⟩ := h
      rcases List.mem_cons.1 hc with rfl | hc
      · exact absurd hd ha
      · exact ⟨c, hc, hd⟩

/-- What one sequence adds when its resolution does not raise: at most one path per
maximal digit run, at most 4 paths, and at most 1 path when the grammar rejects it. -/
theorem process_sequence_bound {join : Str → Str → Str} {store : Store} {s : Str}
    {out : List Str} (hok : process_sequence join store [] s = some out) :
    out.length ≤ count_digit_runs s ∧ out.length ≤ 4 ∧
      (parse_sequence s = none → out.length ≤ 1) := by
  cases hd : dash_stage join store [] s with
  | none => simp [process_sequence, hd] at hok
  | some x =>
    obtain ⟨b, r⟩ := x
    obtain ⟨d, hr, hd1, hoff, hon⟩ := dash_stage_some hd
    obtain ⟨extra, hproc, hextra⟩ := process_of_dash_stage hd
    rw [hok] at hproc
    have hout : out = d ++ extra := by
      rw [Option.some.inj hproc, hr]
      simp
    have hrun : b = true → 1 ≤ count_digit_runs s := by
      intro hb
      obtain ⟨e, num, -, hnum, -⟩ := hon hb
      exact count_pos_of_digit s (digit_of_first_digit_run hnum)
    cases hp : parse_sequence s with
    | none =>
      rw [hp] at hextra
      simp only [Nat.le_zero_eq, List.length_eq_zero] at hextra
      have hlen : out.length = d.length := by rw [hout, hextra]; simp
      have h1 : out.length ≤ 1 := by omega
      refine ⟨?_, by omega, fun _ => h1⟩
      cases b with
      | false =>
        have := hoff rfl
        rw [hlen, this]
        simp
      | true =>
        have := hrun rfl
        omega
    | some parsed =>
      rw [hp] at hextra
      simp only at hextra
      have hcount := count_digit_runs_of_parsed hp
      have h4 := numbers_of_parsed hp
      have hlen : out.length = d.length + extra.length := by rw [hout]; simp
      have hle : out.length ≤ parsed.numbers.length := by
        cases b with
        | false =>
          have := hoff rfl
          simp only [Bool.false_eq_true, if_false] at hextra
          rw [hlen, this]
          simpa using hextra
        | true =>
          have hpos := hrun rfl
          simp only [if_true] at hextra
          cases hn : parsed.numbers with
          | nil => rw [hcount, hn] at hpos; simp at hpos
          | cons n rest =>
            rw [hn] at hextra
            simp only [List.tail_cons] at hextra
            simp only [List.length_cons]
            omega
      refine ⟨by omega, by omega, ?_⟩
      intro hnone
      exact Option.noConfusion hnone

/-- C20. Output bound: a sequence whose resolution does not raise adds at most as many
paths as it has maximal digit runs, never more than 4, and at most 1 when the grammar
rejects it; so the result of a batch that does not raise has at most 4 paths per
sequence. -/
theorem output_bound (join : Str → Str → Str) (store : Store) (s : Str) (out : List Str)
    (sequences : List Str) (outs : List Str)
    (hok : get_final_audio_paths join store [s] = some out)
    (hbatch : get_final_audio_paths join store sequences = some outs) :
    out.length ≤ count_digit_runs s ∧ out.length ≤ 4 ∧
      (parse_sequence s = none → out.length ≤ 1) ∧
      outs.length ≤ 4 * sequences.length := by
  rw [get_final_audio_paths_singleton] at hok
  obtain ⟨h1, h2, h3⟩ := process_sequence_bound hok
  refine ⟨h1, h2, h3, ?_⟩
  clear hok h1 h2 h3
  induction sequences generalizing outs with
  | nil =>
    have : get_final_audio_paths join store [] = some [] := rfl
    rw [this] at hbatch
    rw [← Option.some.inj hbatch]
    simp
  | cons x xs ih =>
    rw [get_final_audio_paths_cons] at hbatch
    cases hx : process_sequence join store [] x with
    | none => rw [hx] at hbatch; simp at hbatch
    | some a =>
      cases hxs : get_final_audio_paths join store xs with
      | none => rw [hx, hxs] at hbatch; simp at hbatch
      | some b =>
        rw [hx, hxs] at hbatch
        have hb := ih b hxs
        have ha := (process_sequence_bound hx).2.1
        have : outs = a ++ b := by simpa using hbatch.symm
        rw [this]
        simp only [List.length_append, List.length_cons]
        omega

/-- The worked example of C20: `WA1BC2` in the worked store adds two paths for its two
digit runs, and a batch of two sequences stays within eight paths. -/
theorem output_bound_witness :
    (["domestic\\sounds/dashone.mp3".toList, "sounds/two.mp3".toList] : List Str).length ≤
        count_digit_runs "WA1BC2".toList ∧
      (["domestic\\sounds/dashone.mp3".toList, "sounds/two.mp3".toList] : List Str).length ≤
        4 * ["WA1BC2".toList, "ZZ-".toList].length :=
  ⟨(output_bound posix_join example_domestic_store "WA1BC2".toList
      ["domestic\\sounds/dashone.mp3".toList, "sounds/two.mp3".toList]
      ["WA1BC2".toList, "ZZ-".toList]
      ["domestic\\sounds/dashone.mp3".toList, "sounds/two.mp3".toList]
      (by decide) (by decide)).1,
   (output_bound posix_join example_domestic_store "WA1BC2".toList
      ["domestic\\sounds/dashone.mp3".toList, "sounds/two.mp3".toList]
      ["WA1BC2".toList, "ZZ-".toList]
      ["domestic\\sounds/dashone.mp3".toList, "sounds/two.mp3".toList]
      (by decide) (by decide)).2.2.2⟩

end VocalLocal
